import Mathlib

/-!
Verification of the qrlogo QR-code codec against its specification.

The Rust sources are shallowly embedded: machine integers (`u8`, `u16`,
`usize`) become `Nat` with explicit wrap-around where the source can wrap,
`Vec` becomes `List`, in-place mutation becomes explicit state passing, and
a Rust `panic!` is modelled with `Option` where the panic behaviour itself
is under scrutiny.
-/

set_option maxRecDepth 100000
set_option maxHeartbeats 4000000

namespace Qrlogo

/-- Element of the Galois field GF(2^8) with primitive polynomial 0x11D
(`struct G(u8)` in reedsolomon.rs); the byte is kept as `Fin 256`. -/
structure G where
  v : Fin 256
deriving DecidableEq, Repr

theorem G.ext_iff (a b : G) : a = b ↔ a.v = b.v := by
  cases a; cases b; simp

/-- The 256-entry exponential table `GF285_EXP` of reedsolomon.rs
(entry `i` is the byte value of alpha^i in GF(2^8)/0x11D). -/
def GF285_EXP : List Nat := [
  0x01, 0x02, 0x04, 0x08, 0x10, 0x20, 0x40, 0x80, 0x1d, 0x3a, 0x74, 0xe8, 0xcd, 0x87, 0x13, 0x26,
  0x4c, 0x98, 0x2d, 0x5a, 0xb4, 0x75, 0xea, 0xc9, 0x8f, 0x03, 0x06, 0x0c, 0x18, 0x30, 0x60, 0xc0,
  0x9d, 0x27, 0x4e, 0x9c, 0x25, 0x4a, 0x94, 0x35, 0x6a, 0xd4, 0xb5, 0x77, 0xee, 0xc1, 0x9f, 0x23,
  0x46, 0x8c, 0x05, 0x0a, 0x14, 0x28, 0x50, 0xa0, 0x5d, 0xba, 0x69, 0xd2, 0xb9, 0x6f, 0xde, 0xa1,
  0x5f, 0xbe, 0x61, 0xc2, 0x99, 0x2f, 0x5e, 0xbc, 0x65, 0xca, 0x89, 0x0f, 0x1e, 0x3c, 0x78, 0xf0,
  0xfd, 0xe7, 0xd3, 0xbb, 0x6b, 0xd6, 0xb1, 0x7f, 0xfe, 0xe1, 0xdf, 0xa3, 0x5b, 0xb6, 0x71, 0xe2,
  0xd9, 0xaf, 0x43, 0x86, 0x11, 0x22, 0x44, 0x88, 0x0d, 0x1a, 0x34, 0x68, 0xd0, 0xbd, 0x67, 0xce,
  0x81, 0x1f, 0x3e, 0x7c, 0xf8, 0xed, 0xc7, 0x93, 0x3b, 0x76, 0xec, 0xc5, 0x97, 0x33, 0x66, 0xcc,
  0x85, 0x17, 0x2e, 0x5c, 0xb8, 0x6d, 0xda, 0xa9, 0x4f, 0x9e, 0x21, 0x42, 0x84, 0x15, 0x2a, 0x54,
  0xa8, 0x4d, 0x9a, 0x29, 0x52, 0xa4, 0x55, 0xaa, 0x49, 0x92, 0x39, 0x72, 0xe4, 0xd5, 0xb7, 0x73,
  0xe6, 0xd1, 0xbf, 0x63, 0xc6, 0x91, 0x3f, 0x7e, 0xfc, 0xe5, 0xd7, 0xb3, 0x7b, 0xf6, 0xf1, 0xff,
  0xe3, 0xdb, 0xab, 0x4b, 0x96, 0x31, 0x62, 0xc4, 0x95, 0x37, 0x6e, 0xdc, 0xa5, 0x57, 0xae, 0x41,
  0x82, 0x19, 0x32, 0x64, 0xc8, 0x8d, 0x07, 0x0e, 0x1c, 0x38, 0x70, 0xe0, 0xdd, 0xa7, 0x53, 0xa6,
  0x51, 0xa2, 0x59, 0xb2, 0x79, 0xf2, 0xf9, 0xef, 0xc3, 0x9b, 0x2b, 0x56, 0xac, 0x45, 0x8a, 0x09,
  0x12, 0x24, 0x48, 0x90, 0x3d, 0x7a, 0xf4, 0xf5, 0xf7, 0xf3, 0xfb, 0xeb, 0xcb, 0x8b, 0x0b, 0x16,
  0x2c, 0x58, 0xb0, 0x7d, 0xfa, 0xe9, 0xcf, 0x83, 0x1b, 0x36, 0x6c, 0xd8, 0xad, 0x47, 0x8e, 0x00]

/-- The 256-entry logarithm table `GF285_LOG` of reedsolomon.rs
(`LOG[0]` is the sentinel 0xFF). -/
def GF285_LOG : List Nat := [
  0xff, 0x00, 0x01, 0x19, 0x02, 0x32, 0x1a, 0xc6, 0x03, 0xdf, 0x33, 0xee, 0x1b, 0x68, 0xc7, 0x4b,
  0x04, 0x64, 0xe0, 0x0e, 0x34, 0x8d, 0xef, 0x81, 0x1c, 0xc1, 0x69, 0xf8, 0xc8, 0x08, 0x4c, 0x71,
  0x05, 0x8a, 0x65, 0x2f, 0xe1, 0x24, 0x0f, 0x21, 0x35, 0x93, 0x8e, 0xda, 0xf0, 0x12, 0x82, 0x45,
  0x1d, 0xb5, 0xc2, 0x7d, 0x6a, 0x27, 0xf9, 0xb9, 0xc9, 0x9a, 0x09, 0x78, 0x4d, 0xe4, 0x72, 0xa6,
  0x06, 0xbf, 0x8b, 0x62, 0x66, 0xdd, 0x30, 0xfd, 0xe2, 0x98, 0x25, 0xb3, 0x10, 0x91, 0x22, 0x88,
  0x36, 0xd0, 0x94, 0xce, 0x8f, 0x96, 0xdb, 0xbd, 0xf1, 0xd2, 0x13, 0x5c, 0x83, 0x38, 0x46, 0x40,
  0x1e, 0x42, 0xb6, 0xa3, 0xc3, 0x48, 0x7e, 0x6e, 0x6b, 0x3a, 0x28, 0x54, 0xfa, 0x85, 0xba, 0x3d,
  0xca, 0x5e, 0x9b, 0x9f, 0x0a, 0x15, 0x79, 0x2b, 0x4e, 0xd4, 0xe5, 0xac, 0x73, 0xf3, 0xa7, 0x57,
  0x07, 0x70, 0xc0, 0xf7, 0x8c, 0x80, 0x63, 0x0d, 0x67, 0x4a, 0xde, 0xed, 0x31, 0xc5, 0xfe, 0x18,
  0xe3, 0xa5, 0x99, 0x77, 0x26, 0xb8, 0xb4, 0x7c, 0x11, 0x44, 0x92, 0xd9, 0x23, 0x20, 0x89, 0x2e,
  0x37, 0x3f, 0xd1, 0x5b, 0x95, 0xbc, 0xcf, 0xcd, 0x90, 0x87, 0x97, 0xb2, 0xdc, 0xfc, 0xbe, 0x61,
  0xf2, 0x56, 0xd3, 0xab, 0x14, 0x2a, 0x5d, 0x9e, 0x84, 0x3c, 0x39, 0x53, 0x47, 0x6d, 0x41, 0xa2,
  0x1f, 0x2d, 0x43, 0xd8, 0xb7, 0x7b, 0xa4, 0x76, 0xc4, 0x17, 0x49, 0xec, 0x7f, 0x0c, 0x6f, 0xf6,
  0x6c, 0xa1, 0x3b, 0x52, 0x29, 0x9d, 0x55, 0xaa, 0xfb, 0x60, 0x86, 0xb1, 0xbb, 0xcc, 0x3e, 0x5a,
  0xcb, 0x59, 0x5f, 0xb0, 0x9c, 0xa9, 0xa0, 0x51, 0x0b, 0xf5, 0x16, 0xeb, 0x7a, 0x75, 0x2c, 0xd7,
  0x4f, 0xae, 0xd5, 0xe9, 0xe6, 0xe7, 0xad, 0xe8, 0x74, 0xd6, 0xf4, 0xea, 0xa8, 0x50, 0x58, 0xaf]

/-- `GF285_EXP` packed little-endian into one natural number (8 bits per
entry), so the kernel can look entries up with O(1) arithmetic instead of
walking a 256-element list.  `gexpN_matches_table` proves it is the same
table. -/
def EXPPACK : Nat :=
  70160881166704368827218703435136616750530459438269794890424969378298545675077208731798828898087927652446353395360628748027273188182808436399538186061104243134188885576122562338679313492324190829158544377810568631194580132524405266702234305646236648896994794467054525044798919765581988418950285252905306116225263236585714808161311289784028762024137133735135393922581566890382566480334369299400480864790538739986285574563168380416343369614948461817839620668187777978661530364712890858126432457562886306102556561631759900551331094983229723298224611133722330829711659991602983068895685602467964643306841827719562658305

/-- `GF285_LOG` packed little-endian into one natural number; see `EXPPACK`. -/
def LOGPACK : Nat :=
  22135253156888987530748098150270024343632497605293634117281264061560962248099620766229961468867162294233796152347975563017024165690400661622462404646302566225833645086064538892198543335321514950294300187779610338557442029018619797274438901674641748676613670242915365385819254959901651105240253464034662486586186382979728982817772067067513442677601938078891989292316012868233806586592927239821351197800766822366321181463280924672822998103315976779850880337712374790938628529953751181886374687897611504386983350015558142994211516619836411558782076806704747441947939324473761869443721989389604670425385080942269787341055

/-- Table lookup `GF285_EXP[i]` (via the packed constant; out-of-range
indices give 0, which never occurs in the embedded code paths). -/
def gexpN (i : Nat) : Nat := (EXPPACK >>> (8 * i)) % 256

/-- Table lookup `GF285_LOG[i]` (via the packed constant). -/
def glogN (i : Nat) : Nat := (LOGPACK >>> (8 * i)) % 256

theorem gexpN_lt (i : Nat) : gexpN i < 256 := Nat.mod_lt _ (by norm_num)

theorem glogN_lt (i : Nat) : glogN i < 256 := Nat.mod_lt _ (by norm_num)

/-- The packed exponential table agrees with the literal source table. -/
theorem gexpN_matches_table : ∀ i < 256, gexpN i = GF285_EXP.getD i 0 := by decide

/-- The packed logarithm table agrees with the literal source table. -/
theorem glogN_matches_table : ∀ i < 256, glogN i = GF285_LOG.getD i 0 := by decide

/-- Galois-field multiplication on raw byte values (`impl Mul for G`,
reedsolomon.rs: zero if either factor is zero, otherwise
`EXP[(LOG[a] + LOG[b]) % 255]`). -/
def gmulN (a b : Nat) : Nat :=
  if a = 0 ∨ b = 0 then 0 else gexpN ((glogN a + glogN b) % 255)

theorem gmulN_lt (a b : Nat) : gmulN a b < 256 := by
  unfold gmulN
  split
  · norm_num
  · exact gexpN_lt _

theorem xor_lt_256 {a b : Nat} (ha : a < 256) (hb : b < 256) : a ^^^ b < 256 :=
  Nat.xor_lt_two_pow (n := 8) ha hb

instance : Zero G := ⟨⟨0, by norm_num⟩⟩

instance : One G := ⟨⟨1, by norm_num⟩⟩

/-- `impl Add for G`: addition in GF(2^8) is XOR. -/
instance : Add G := ⟨fun a b => ⟨⟨a.v.val ^^^ b.v.val, xor_lt_256 a.v.isLt b.v.isLt⟩⟩⟩

/-- `impl Mul for G` (table-based log/exp multiplication). -/
instance : Mul G := ⟨fun a b => ⟨⟨gmulN a.v.val b.v.val, gmulN_lt _ _⟩⟩⟩

/-- GF(2^8) has characteristic 2, so negation is the identity. -/
instance : Neg G := ⟨fun a => a⟩

/-- `impl Sub for G`: subtraction is also XOR, identical to addition. -/
instance : Sub G := ⟨fun a b => a + b⟩

theorem G.add_val (a b : G) : (a + b).v.val = a.v.val ^^^ b.v.val := rfl

theorem G.mul_val (a b : G) : (a * b).v.val = gmulN a.v.val b.v.val := rfl

theorem G.zero_val : (0 : G).v.val = 0 := rfl

theorem G.one_val : (1 : G).v.val = 1 := rfl

theorem G.neg_val (a : G) : (-a).v.val = a.v.val := rfl

theorem G.val_inj {a b : G} (h : a.v.val = b.v.val) : a = b := by
  cases a with | mk av =>
  cases b with | mk bv =>
  simpa [Fin.ext_iff] using h

/-- `EXP[LOG[a]] = a` for nonzero bytes (pinned by the `log_exp_inverse` test). -/
theorem gexpN_glogN : ∀ a < 256, a ≠ 0 → gexpN (glogN a) = a := by decide

/-- `LOG[EXP[i]] = i` for `i < 255`. -/
theorem glogN_gexpN : ∀ i < 255, glogN (gexpN i) = i := by decide

/-- The logarithm of a nonzero byte is below 255 (255 is the `LOG[0]` sentinel). -/
theorem glogN_lt_255 : ∀ a < 256, a ≠ 0 → glogN a < 255 := by decide

/-- `EXP[i]` is nonzero for `i < 255`. -/
theorem gexpN_ne_zero : ∀ i < 255, gexpN i ≠ 0 := by decide

theorem gmulN_zero_left (b : Nat) : gmulN 0 b = 0 := by simp [gmulN]

theorem gmulN_zero_right (a : Nat) : gmulN a 0 = 0 := by simp [gmulN]

theorem gmulN_comm (a b : Nat) : gmulN a b = gmulN b a := by
  unfold gmulN
  rcases eq_or_ne a 0 with ha | ha <;> rcases eq_or_ne b 0 with hb | hb <;>
    simp [ha, hb, Nat.add_comm]

theorem gmulN_formula {a b : Nat} (ha0 : a ≠ 0) (hb0 : b ≠ 0) :
    gmulN a b = gexpN ((glogN a + glogN b) % 255) := by
  unfold gmulN
  rw [if_neg (by tauto)]

theorem gmulN_ne_zero {a b : Nat} (ha0 : a ≠ 0) (hb0 : b ≠ 0) : gmulN a b ≠ 0 := by
  rw [gmulN_formula ha0 hb0]
  exact gexpN_ne_zero _ (Nat.mod_lt _ (by norm_num))

theorem glogN_gmulN {a b : Nat} (ha0 : a ≠ 0) (hb0 : b ≠ 0) :
    glogN (gmulN a b) = (glogN a + glogN b) % 255 := by
  rw [gmulN_formula ha0 hb0]
  exact glogN_gexpN _ (Nat.mod_lt _ (by norm_num))

theorem gmulN_assoc (a b c : Nat) : gmulN (gmulN a b) c = gmulN a (gmulN b c) := by
  rcases eq_or_ne a 0 with ha | ha
  · simp [ha, gmulN_zero_left]
  rcases eq_or_ne b 0 with hb | hb
  · simp [hb, gmulN_zero_left, gmulN_zero_right]
  rcases eq_or_ne c 0 with hc | hc
  · simp [hc, gmulN_zero_right]
  rw [gmulN_formula (gmulN_ne_zero ha hb) hc, gmulN_formula ha (gmulN_ne_zero hb hc),
    glogN_gmulN ha hb, glogN_gmulN hb hc, Nat.mod_add_mod, Nat.add_mod_mod, Nat.add_assoc]

/-- `1 * a = a` for every byte value. -/
theorem gmulN_one_left : ∀ a < 256, gmulN 1 a = a := by decide

/-- Structural bounded checker: `allBelow p n` tests `p` on every `i < n`,
written with a bare `Nat.rec` so the kernel evaluates it in linear time. -/
def allBelow (p : Nat → Bool) (n : Nat) : Bool :=
  Nat.rec true (fun m acc => p m && acc) n

theorem allBelow_succ (p : Nat → Bool) (n : Nat) :
    allBelow p (n + 1) = (p n && allBelow p n) := rfl

theorem allBelow_spec (p : Nat → Bool) : ∀ n, allBelow p n = true → ∀ i < n, p i = true := by
  intro n
  induction n with
  | zero => intro _ i hi; omega
  | succ m ih =>
    intro h i hi
    rw [allBelow_succ, Bool.and_eq_true] at h
    rcases Nat.lt_succ_iff_lt_or_eq.mp hi with h2 | h2
    · exact ih h.2 i h2
    · rw [h2]; exact h.1

theorem xorN_left_comm (a b c : Nat) : a ^^^ (b ^^^ c) = b ^^^ (a ^^^ c) := by
  rw [← Nat.xor_assoc, Nat.xor_comm a b, Nat.xor_assoc]

/-- Multiplication by x (= alpha = 2) in GF(2^8)/0x11D: shift left and
reduce once.  Proof helper for distributivity of the table product. -/
def xtimeN (b : Nat) : Nat := if b.testBit 7 then (2 * b) ^^^ 0x11D else 2 * b

/-- `xtimeN` agrees with table multiplication by 2 on all bytes. -/
theorem xtimeN_eq_gmulN_two : allBelow (fun a => xtimeN a == gmulN 2 a) 256 = true := by
  decide!

/-- The exponential table satisfies the xtime recurrence
`EXP[i+1] = xtime EXP[i]` below the wrap-around point. -/
theorem gexpN_succ_all : allBelow (fun i => gexpN (i + 1) == xtimeN (gexpN i)) 254 = true := by
  decide!

/-- `EXP[0] = 1`, and applying `xtimeN` to `EXP[254]` wraps back to 1. -/
theorem gexpN_boundary : gexpN 0 = 1 ∧ xtimeN (gexpN 254) = 1 := by decide!

theorem shiftLeft_xor_distrib (x y i : Nat) : (x ^^^ y) <<< i = (x <<< i) ^^^ (y <<< i) := by
  apply Nat.eq_of_testBit_eq
  intro j
  simp only [Nat.testBit_shiftLeft, Nat.testBit_xor]
  cases Nat.decLe i j with
  | isTrue h => simp [h]
  | isFalse h => simp [h]

theorem mul_two_xor (b c : Nat) : 2 * (b ^^^ c) = (2 * b) ^^^ (2 * c) := by
  have h : ∀ x : Nat, 2 * x = x <<< 1 := by
    intro x
    rw [Nat.shiftLeft_eq, pow_one, Nat.mul_comm]
  rw [h, h, h, ← shiftLeft_xor_distrib]

/-- `xtimeN` is additive (GF(2^8) addition being XOR). -/
theorem xtimeN_xor (b c : Nat) : xtimeN (b ^^^ c) = xtimeN b ^^^ xtimeN c := by
  unfold xtimeN
  rw [Nat.testBit_xor, mul_two_xor]
  cases hb : b.testBit 7 <;> cases hc : c.testBit 7 <;>
    simp [Nat.xor_assoc, Nat.xor_comm, xorN_left_comm]

/-- Iterated `xtimeN`: the powers of alpha, defined with a bare `Nat.rec`. -/
def gpowN (i : Nat) : Nat := Nat.rec 1 (fun _ acc => xtimeN acc) i

theorem gpowN_succ (i : Nat) : gpowN (i + 1) = xtimeN (gpowN i) := rfl

/-- On `i < 255` the table exponential is the iterated xtime power. -/
theorem gexpN_eq_gpowN : ∀ i < 255, gexpN i = gpowN i := by
  have hrec := allBelow_spec _ _ gexpN_succ_all
  intro i
  induction i with
  | zero =>
    intro _
    rw [gexpN_boundary.1]
    rfl
  | succ m ih =>
    intro hm
    have hmlt : m < 254 := by omega
    have h1 := hrec m hmlt
    rw [Nat.beq_eq_true_eq] at h1
    rw [h1, gpowN_succ, ih (by omega)]

/-- Every nonzero byte is a power of alpha: `gpowN (LOG a) = a`. -/
theorem gpowN_glogN {a : Nat} (ha : a < 256) (ha0 : a ≠ 0) : gpowN (glogN a) = a := by
  rw [← gexpN_eq_gpowN _ (glogN_lt_255 a ha ha0)]
  exact gexpN_glogN a ha ha0

/-- `a * 1 = a` on bytes. -/
theorem gmulN_one_right_all : allBelow (fun a => gmulN a 1 == a) 256 = true := by decide!

theorem gmulN_two (a : Nat) (ha : a < 256) : gmulN 2 a = xtimeN a := by
  have h := allBelow_spec _ _ xtimeN_eq_gmulN_two a ha
  rw [Nat.beq_eq_true_eq] at h
  exact h.symm

/-- Multiplying by `xtimeN b` is `xtimeN` of multiplying by `b`
(uses associativity, which is already proved via logarithms). -/
theorem gmulN_xtimeN (a b : Nat) (ha : a < 256) (hb : b < 256) :
    gmulN (xtimeN b) a = xtimeN (gmulN b a) := by
  have hx : xtimeN b = gmulN 2 b := (gmulN_two b hb).symm
  rw [hx, gmulN_assoc, gmulN_two _ (gmulN_lt b a)]

/-- `xtimeN` stays inside the byte range. -/
theorem xtimeN_lt_all : allBelow (fun a => decide (xtimeN a < 256)) 256 = true := by decide!

theorem xtimeN_lt {a : Nat} (ha : a < 256) : xtimeN a < 256 := by
  have h := allBelow_spec _ _ xtimeN_lt_all a ha
  exact of_decide_eq_true h

/-- `gpowN` stays inside the byte range. -/
theorem gpowN_lt (i : Nat) : gpowN i < 256 := by
  induction i with
  | zero => norm_num [gpowN]
  | succ m ih =>
    rw [gpowN_succ]
    exact xtimeN_lt ih

/-- Distributivity for a power-of-alpha left factor, by induction on the
exponent: the base case is multiplication by 1 and each step conjugates by
the additive map `xtimeN`. -/
theorem gpow_distrib : ∀ i, ∀ b < 256, ∀ c < 256,
    gmulN (gpowN i) (b ^^^ c) = gmulN (gpowN i) b ^^^ gmulN (gpowN i) c := by
  intro i
  induction i with
  | zero =>
    intro b hb c hc
    have h1 : ∀ x < 256, gmulN 1 x = x := gmulN_one_left
    rw [show gpowN 0 = 1 from rfl, h1 _ (xor_lt_256 hb hc), h1 b hb, h1 c hc]
  | succ m ih =>
    intro b hb c hc
    rw [gpowN_succ, gmulN_xtimeN _ _ (xor_lt_256 hb hc) (gpowN_lt m),
      gmulN_xtimeN _ _ hb (gpowN_lt m), gmulN_xtimeN _ _ hc (gpowN_lt m),
      ← xtimeN_xor, ih b hb c hc]

theorem gmulN_xor {a b c : Nat} (ha : a < 256) (hb : b < 256) (hc : c < 256) :
    gmulN a (b ^^^ c) = gmulN a b ^^^ gmulN a c := by
  rcases eq_or_ne a 0 with ha0 | ha0
  · simp [ha0, gmulN_zero_left]
  rw [← gpowN_glogN ha ha0]
  exact gpow_distrib (glogN a) b hb c hc

/-- GF(2^8) with the source operations is a commutative ring (indeed a
field, but the ring structure is all the correctness proofs need). -/
instance : CommRing G where
  add_assoc a b c := G.val_inj (by
    simp only [G.add_val]
    exact Nat.xor_assoc _ _ _)
  zero_add a := G.val_inj (by
    simp only [G.add_val, G.zero_val]
    exact Nat.zero_xor _)
  add_zero a := G.val_inj (by
    simp only [G.add_val, G.zero_val]
    exact Nat.xor_zero _)
  add_comm a b := G.val_inj (by
    simp only [G.add_val]
    exact Nat.xor_comm _ _)
  mul_assoc a b c := G.val_inj (by
    simp only [G.mul_val]
    exact gmulN_assoc _ _ _)
  one_mul a := G.val_inj (by
    simp only [G.mul_val, G.one_val]
    exact gmulN_one_left a.v.val a.v.isLt)
  mul_one a := G.val_inj (by
    simp only [G.mul_val, G.one_val]
    rw [gmulN_comm]
    exact gmulN_one_left a.v.val a.v.isLt)
  mul_comm a b := G.val_inj (by
    simp only [G.mul_val]
    exact gmulN_comm _ _)
  zero_mul a := G.val_inj (by
    simp only [G.mul_val, G.zero_val]
    exact gmulN_zero_left _)
  mul_zero a := G.val_inj (by
    simp only [G.mul_val, G.zero_val]
    exact gmulN_zero_right _)
  left_distrib a b c := G.val_inj (by
    simp only [G.add_val, G.mul_val]
    exact gmulN_xor a.v.isLt b.v.isLt c.v.isLt)
  right_distrib a b c := G.val_inj (by
    simp only [G.add_val, G.mul_val]
    rw [gmulN_comm a.v.val, gmulN_comm b.v.val, gmulN_comm (a.v.val ^^^ b.v.val)]
    exact gmulN_xor c.v.isLt a.v.isLt b.v.isLt)
  neg := Neg.neg
  sub := Sub.sub
  sub_eq_add_neg a b := rfl
  neg_add_cancel a := G.val_inj (by
    simp only [G.add_val, G.neg_val, G.zero_val]
    exact Nat.xor_self _)
  nsmul := nsmulRec
  zsmul := zsmulRec

/-- Characteristic 2: every element is its own additive inverse. -/
theorem G.add_self_eq_zero (a : G) : a + a = 0 :=
  G.val_inj (by
    simp only [G.add_val, G.zero_val]
    exact Nat.xor_self _)


/-! ## Reed-Solomon: Galois element operations (reedsolomon.rs `impl G`) -/

/-- `G::exp`: `GF285_EXP[self.0]`. -/
def G.exp (a : G) : G := ⟨⟨gexpN a.v.val, gexpN_lt _⟩⟩

/-- `G::log`: `GF285_LOG[self.0]`. -/
def G.log (a : G) : G := ⟨⟨glogN a.v.val, glogN_lt _⟩⟩

/-- `G(j)` for a raw index `j`, composed with `exp`; `gexpG j = G(j).exp()`. -/
def gexpG (j : Nat) : G := ⟨⟨gexpN j, gexpN_lt _⟩⟩

/-- `G::log_inv`: `G(255 - GF285_LOG[self.0])` (log of the inverse). -/
def G.log_inv (a : G) : G := ⟨⟨255 - glogN a.v.val, by omega⟩⟩

/-- `impl Not for G`: the multiplicative inverse `EXP[255 - LOG[a]]`. -/
def G.inv (a : G) : G := ⟨⟨gexpN (255 - glogN a.v.val), gexpN_lt _⟩⟩

/-- `impl Div for G`, with the `panic!` on dividing a nonzero element by
zero modelled as `none`: the source returns `G(0)` early when the numerator
is zero (without looking at the divisor), and panics when the divisor is
zero afterwards. -/
def G.div? (a b : G) : Option G :=
  if a.v.val = 0 then some 0
  else if b.v.val = 0 then none
  else some ⟨⟨gexpN ((255 + glogN a.v.val - glogN b.v.val) % 255), gexpN_lt _⟩⟩

/-- Total division used inside the decoder embedding; the panic case
(nonzero divided by zero) is mapped to 0.  On the decoder paths proved
below the divisor is never zero when the numerator is nonzero. -/
instance : Div G := ⟨fun a b => (G.div? a b).getD 0⟩

/-! ## Reed-Solomon: polynomials over GF(2^8) (reedsolomon.rs `Poly`).
A `Poly` (a `Vec<G>`, index 0 = lowest degree) is embedded as `List G`. -/

/-- Coefficient access.  `Index<u8> for Poly` returns `G(0)` out of range;
the `usize` index would panic, but is only used in range by the embedded
code, so both are `getD`. -/
def polyGet (p : List G) (i : Nat) : G := p.getD i 0

/-- Helper for `Poly::degree`: scan indices `len-1 .. 1` from the top for
the first nonzero coefficient. -/
def polyDegreeAux (p : List G) : Nat → Nat
  | 0 => 0
  | 1 => 0
  | i + 2 => if polyGet p (i + 1) ≠ 0 then i + 1 else polyDegreeAux p (i + 1)

/-- `Poly::degree`. -/
def polyDegree (p : List G) : Nat := polyDegreeAux p p.length

/-- `Poly::simplify` pops trailing zero coefficients, never below length 1;
that is exactly truncation to `degree + 1` entries. -/
def polySimplify (p : List G) : List G := p.take (polyDegree p + 1)

/-- `Poly::truncate(degree)`: `Vec::truncate(degree + 1)` then `simplify`. -/
def polyTruncate (p : List G) (d : Nat) : List G := polySimplify (p.take (d + 1))

/-- `Poly::eval`: Horner evaluation from the highest nonzero coefficient. -/
def polyEval (p : List G) (x : G) : G :=
  (List.range (polyDegree p)).foldl
    (fun v jj => polyGet p (polyDegree p - 1 - jj) + v * x) (polyGet p (polyDegree p))

/-- Helper for `Poly::find_roots`: try the candidate roots in order and
return as soon as `degree` roots have been collected. -/
def findRootsAux (p : List G) (n : Nat) : List G → List G → List G
  | [], acc => acc
  | r :: rest, acc =>
    if polyEval p r = 0 then
      if n ≤ acc.length + 1 then acc ++ [r]
      else findRootsAux p n rest (acc ++ [r])
    else findRootsAux p n rest acc

/-- `Poly::find_roots`: evaluate at all 256 field elements. -/
def polyFindRoots (p : List G) : List G :=
  findRootsAux p (polyDegree p) ((List.finRange 256).map G.mk) []

/-- `Poly::derivative`: `der[i]` is `c[i+1]` XOR-accumulated `i+1` times
(an even multiplicity collapses to zero). -/
def polyDerivative (p : List G) : List G :=
  (List.range (p.length - 1)).map fun i =>
    (List.range i).foldl (fun acc _ => acc + polyGet p (i + 1)) (polyGet p (i + 1))

/-- `impl Mul for &Poly`: polynomial product.  The Rust loop accumulates
`dst[i + j] += c_i * d_j` over all index pairs starting from a zero vector
of length `n + m + 1`; each pair lands in its coefficient exactly once, so
entry `k` of the result is the convolution sum written here directly.
`simplify` then trims trailing zeros. -/
def polyMulSrc (p q : List G) : List G :=
  polySimplify ((List.range (q.length + p.length + 1)).map fun k =>
    ∑ i in Finset.range (k + 1), polyGet p i * polyGet q (k - i))

/-- `impl ShlAssign for Poly`: multiply by x^shift inside the fixed length
(coefficients shifted past the end are dropped with a warning). -/
def polyShl (p : List G) (shift : Nat) : List G :=
  if p.length ≤ shift then List.replicate p.length 0
  else (List.range p.length).map fun i => if i < shift then 0 else polyGet p (i - shift)

/-- `impl SubAssign for Poly` (pointwise XOR; the uses always have equal
lengths, which `zipWith` preserves). -/
def polySub (p q : List G) : List G := List.zipWith (fun a b => a - b) p q

/-- `impl MulAssign<G> for Poly`: scale every coefficient. -/
def polyScale (p : List G) (factor : G) : List G := p.map fun c => c * factor

/-- `Poly::new_one(n)`: 1 followed by `n - 1` zeros. -/
def polyNewOne (n : Nat) : List G := 1 :: List.replicate (n - 1) 0

/-- `Poly::generator(nbytes)`: start from `x + 1` and multiply by
`x + alpha^i` for `i = 1 .. nbytes-1`.  (`Poly::new(0)` is empty; for
`nbytes = 1` the source would panic on an out-of-range write, a size never
used by the QR tables.) -/
def polyGenerator (nbytes : Nat) : List G :=
  if nbytes = 0 then []
  else
    let base : List G := List.replicate nbytes 0
    let genpoly0 := (base.set 0 1).set 1 1
    let tp := base.set 1 1
    (List.range (nbytes - 1)).foldl
      (fun gp i => polyMulSrc gp (tp.set 0 (gexpG ((i + 1) % 256)))) genpoly0

/-! ## Reed-Solomon encoder (reedsolomon.rs `ReedSolomonEncoder`) -/

/-- One step of the encoder LFSR for message byte `m`
(`ReedSolomonEncoder::encode` inner loop; the Rust `lfsr` array of size 69
only ever uses its first `e` slots, embedded as a length-`e` list). -/
def lfsrStep (gen : List G) (e : Nat) (st : List G) (m : G) : List G :=
  let b := m + polyGet st (e - 1)
  (List.range e).map fun j =>
    if j = 0 then polyGet gen 0 * b else polyGet st (j - 1) + polyGet gen j * b

/-- `ReedSolomonEncoder::new(e)` followed by `encode(msg)`: run the LFSR
over the message and emit it reversed as the parity bytes. -/
def rsEncode (e : Nat) (msg : List G) : List G :=
  let gen := polyGenerator e
  let final := msg.foldl (lfsrStep gen e) (List.replicate e 0)
  (List.range e).reverse.map fun i => polyGet final i

/-! ## Reed-Solomon decoder (reedsolomon.rs `reed_solomon_decoder`) -/

/-- `reed_solomon_decoder::syndromes`: Horner-evaluate message plus parity
at `EXP[j]` for each `j` below the parity length; `none` when every
syndrome is zero.  The loop counter is a `u8`, hence `% 256` (the parity
length is at most 68 in the QR tables). -/
def syndromes (msg parity : List G) : Option (List G) :=
  let syn := (List.range (parity.length % 256)).map fun j =>
    (msg ++ parity).foldl (fun sum b => b + gexpG j * sum) 0
  if syn.all (fun s => s == 0) then none else some syn

/-- `reed_solomon_decoder::descrepancy`. -/
def descrepancy (cp syn : List G) (n_errors n : Nat) : G :=
  (List.range n_errors).foldl
    (fun d i => d + polyGet cp (i + 1) * polyGet syn (n - (i + 1))) (polyGet syn n)

/-- State of the Berlekamp-Massey loop. -/
structure BMState where
  cp : List G
  prev : List G
  n_errors : Nat
  m : Nat
  prev_d : G

/-- One iteration of `berlekamp_massey` (loop body over `n`). -/
def bmStep (syn : List G) (st : BMState) (n : Nat) : BMState :=
  let d := descrepancy st.cp syn st.n_errors n
  if d = 0 then { st with m := st.m + 1 }
  else if 2 * st.n_errors ≤ n then
    let shifted := polyScale (polyShl st.prev st.m) (d / st.prev_d)
    { cp := polySub st.cp shifted, prev := st.cp, n_errors := (n + 1) - st.n_errors,
      m := 1, prev_d := d }
  else
    let shifted := polyScale (polyShl st.prev st.m) (d / st.prev_d)
    { st with cp := polySub st.cp shifted, m := st.m + 1 }

/-- `reed_solomon_decoder::berlekamp_massey` (the final degree check only
logs, so it has no behavioural effect). -/
def berlekampMassey (syn : List G) (n_max : Nat) : List G :=
  (polySimplify ((List.range n_max).foldl (bmStep syn)
    { cp := polyNewOne n_max, prev := polyNewOne n_max, n_errors := 0, m := 1,
      prev_d := 1 : BMState }).cp)

/-- `reed_solomon_decoder::forney`. -/
def forney (roots : List G) (error_poly error_eval_poly : List G) : List G :=
  let derivative := polyDerivative error_poly
  roots.map fun r => (G.inv r) * (polyEval error_eval_poly r / polyEval derivative r)

/-- The error string of the too-many-errors failure. -/
def tooManyErrorsMsg (found cap : Nat) : String :=
  "ReedSolomon failed: Too many errors. found " ++ toString found
    ++ "; can only correct up to " ++ toString cap

/-- The error string of the wrong-number-of-roots failure. -/
def wrongRootCountMsg (got expected : Nat) : String :=
  "ReedSolomon failed: Wrong number of roots: got " ++ toString got
    ++ "; expected " ++ toString expected

/-- The in-place correction loop at the end of `correct`: XOR each error
value into its byte, skipping out-of-range locators. -/
def applyCorrections (msg : List G) (n_parity : Nat) (roots vals : List G) : List G :=
  (List.zip roots vals).foldl
    (fun m rv =>
      let loc := (G.log_inv rv.1).v.val
      if m.length + n_parity - 1 < loc then m
      else
        let pos := m.length + n_parity - loc - 1
        if pos < m.length then m.set pos (polyGet m pos + rv.2) else m)
    msg

/-- `reed_solomon_decoder::correct`.  The in-place mutation of `msg` is
modelled by returning the final message next to the `Result`; each error
return leaves it untouched, mirroring the source where all corrections
happen after the last failure check. -/
def correct (msg parity : List G) : Except String Nat × List G :=
  match syndromes msg parity with
  | none => (Except.ok 4, msg)
  | some syn =>
    let cap := parity.length / 2
    let error_poly := berlekampMassey syn parity.length
    let n_errors := polyDegree error_poly
    if cap < n_errors then (Except.error (tooManyErrorsMsg n_errors cap), msg)
    else
      let grade : Nat := if cap - n_errors > 2 then 3 else if cap - n_errors > 1 then 2 else 1
      let roots := polyFindRoots error_poly
      if roots.length ≠ n_errors then
        (Except.error (wrongRootCountMsg roots.length n_errors), msg)
      else
        let error_eval_poly := polyTruncate (polyMulSrc error_poly syn) (parity.length / 2 - 1)
        let error_values := forney roots error_poly error_eval_poly
        (Except.ok grade, applyCorrections msg parity.length roots error_values)


/-- Byte to field element (wrapping like the `G(u8)` constructor). -/
def gOf (n : Nat) : G := ⟨⟨n % 256, Nat.mod_lt _ (by norm_num)⟩⟩

/-- A list of bytes as field elements. -/
def glist (l : List Nat) : List G := l.map gOf

instance (priority := low) (n : Nat) : OfNat G n := ⟨gOf n⟩

instance : DecidableEq (Except String Nat) := fun a b =>
  match a, b with
  | Except.ok x, Except.ok y => decidable_of_iff (x = y) (by constructor <;> (intro h; cases h <;> rfl))
  | Except.error x, Except.error y => decidable_of_iff (x = y) (by constructor <;> (intro h; cases h <;> rfl))
  | Except.ok _, Except.error _ => isFalse (by intro h; cases h)
  | Except.error _, Except.ok _ => isFalse (by intro h; cases h)

/-- The spec's division formula, read off the literal source tables:
`EXP[(255 + LOG[a] - LOG[b]) mod 255]`. -/
def divFormula (a b : G) : Nat :=
  GF285_EXP.getD ((255 + GF285_LOG.getD a.v.val 0 - GF285_LOG.getD b.v.val 0) % 255) 0

theorem G.ne_zero_val {a : G} (h : a ≠ 0) : a.v.val ≠ 0 := by
  intro hv
  exact h (G.val_inj (by rw [hv]; rfl))

/-- Every failure `correct` can return carries one of the two Reed-Solomon
error strings, and any failing run leaves the message argument untouched. -/
theorem correct_shape (msg parity : List G) :
    (correct msg parity).1.isOk = true ∨
    ((correct msg parity).2 = msg ∧ ∃ a b,
      (correct msg parity).1 = Except.error (tooManyErrorsMsg a b) ∨
      (correct msg parity).1 = Except.error (wrongRootCountMsg a b)) := by
  unfold correct
  split
  · left; rfl
  · dsimp only
    split
    · right
      exact ⟨rfl, _, _, Or.inl rfl⟩
    · split
      · right
        exact ⟨rfl, _, _, Or.inr rfl⟩
      · left; rfl

/-! ## Claim C5 (corrected): Galois division -/

/-- C5 as stated is false at `a = 0`: dividing zero by zero returns
`G(0)` instead of panicking (the source returns early on a zero numerator
before checking the divisor), and for `a = 0, b = 1` the code returns 0
while the table formula gives `EXP[(255 + 255 - 0) % 255] = EXP[0] = 1`. -/
theorem C5_counterexample :
    (G.div? 0 0 = some 0 ∧ divFormula 0 1 = 1 ∧ (G.div? 0 1).map (fun g => g.v.val) = some 0) ∧
    ¬ (∀ a b : G, b ≠ 0 → (G.div? a b).map (fun g => g.v.val) = some (divFormula a b)) := by
  constructor
  · exact ⟨by decide, by decide, by decide⟩
  · intro h
    have h2 := h 0 1 (by decide)
    revert h2
    decide

/-- C5 amended: for a nonzero numerator the division follows the table
formula `EXP[(255 + LOG[a] - LOG[b]) mod 255]` and dividing by zero
panics; a zero numerator short-circuits to `G(0)` whatever the divisor. -/
theorem C5_division (a b : G) :
    (a ≠ 0 → b ≠ 0 → (G.div? a b).map (fun g => g.v.val) = some (divFormula a b)) ∧
    (a ≠ 0 → G.div? a 0 = none) ∧
    G.div? 0 b = some 0 := by
  refine ⟨fun ha hb => ?_, fun ha => ?_, ?_⟩
  · have ha' := G.ne_zero_val ha
    have hb' := G.ne_zero_val hb
    unfold G.div? divFormula
    rw [if_neg ha', if_neg hb']
    simp only [Option.map]
    have hlt : (255 + glogN a.v.val - glogN b.v.val) % 255 < 256 :=
      lt_trans (Nat.mod_lt _ (by norm_num)) (by norm_num)
    rw [gexpN_matches_table _ hlt, glogN_matches_table _ a.v.isLt, glogN_matches_table _ b.v.isLt]
  · have ha' := G.ne_zero_val ha
    unfold G.div?
    rw [if_neg ha', if_pos (show (0 : G).v.val = 0 from rfl)]
  · unfold G.div?
    rw [if_pos (show (0 : G).v.val = 0 from rfl)]

/-- Witness for C5: a nonzero instance follows the formula, dividing it by
zero panics, and zero divided by anything is zero. -/
theorem C5_division_witness :
    ((G.div? 2 4).map (fun g => g.v.val) = some (divFormula 2 4)) ∧
    G.div? 2 0 = none ∧ G.div? 0 4 = some 0 := by
  obtain ⟨h1, h2, h3⟩ := C5_division 2 4
  exact ⟨h1 (by decide) (by decide), h2 (by decide), h3⟩

/-! ## Claim C10 (confirmed): the decoder error path leaves the message intact -/

/-- C10: whenever `correct` fails, the message buffer is byte-for-byte
unchanged - all in-place corrections happen after the last failure check. -/
theorem C10_error_leaves_message_unchanged (msg parity : List G)
    (h : (correct msg parity).1.isOk = false) : (correct msg parity).2 = msg := by
  rcases correct_shape msg parity with h1 | ⟨h2, _⟩
  · rw [h1] at h
    cases h
  · exact h2

/-- Concrete failing run for C10: four corrupted bytes against 7 parity
bytes (capacity 3) make `correct` fail, with the message unchanged. -/
theorem C10_error_leaves_message_unchanged_witness :
    ((correct (glist ([1, 2, 3, 4] ++ List.replicate 15 0)) (glist (List.replicate 7 0))).1.isOk
      = false) ∧
    (correct (glist ([1, 2, 3, 4] ++ List.replicate 15 0)) (glist (List.replicate 7 0))).2
      = glist ([1, 2, 3, 4] ++ List.replicate 15 0) :=
  ⟨by decide, C10_error_leaves_message_unchanged _ _ (by decide)⟩

/-! ## Claim C3 (corrected): behaviour beyond the correction capacity -/

/-- The all-zero 19-byte message (v1-L block shape: k = 19, e = 7, t = 3). -/
def c3origMsg : List G := List.replicate 19 0

/-- The corrupted message: a single-bit change in the first byte. -/
def c3noisyMsg : List G := glist ([1] ++ List.replicate 18 0)

/-- The corrupted parity: the parity of `c3noisyMsg`, so message plus
parity is again a valid codeword. -/
def c3noisyParity : List G := glist [232, 61, 226, 32, 179, 96, 197]

/-- C3 as stated is false: corrupting the all-zero codeword (19 zero
message bytes, 7 zero parity bytes) in 8 positions - more than t = 3 -
with nonzero XOR noise equal to the codeword of `c3noisyMsg` makes
`correct` return `Ok(4)` with a message different from the original: a
silent miscorrection, not an error. -/
theorem C3_counterexample :
    (c3noisyParity = rsEncode 7 c3noisyMsg) ∧
    (((c3noisyMsg ++ c3noisyParity).zip (c3origMsg ++ rsEncode 7 c3origMsg)).countP
        (fun ab => ab.1 != ab.2) = 8) ∧
    (rsEncode 7 c3origMsg).length / 2 = 3 ∧
    correct c3noisyMsg c3noisyParity = (Except.ok 4, c3noisyMsg) ∧
    c3noisyMsg ≠ c3origMsg := by
  refine ⟨by decide, by decide, by decide, by decide, by decide⟩

/-- C3 amended: with more than t corrupted positions `correct` may either
fail or silently return `Ok` with a different message; every failure it
does return is the too-many-errors or the wrong-number-of-roots error. -/
theorem C3_failure_taxonomy (msg parity : List G) :
    (∃ g, (correct msg parity).1 = Except.ok g) ∨
    (∃ a b, (correct msg parity).1 = Except.error (tooManyErrorsMsg a b) ∨
      (correct msg parity).1 = Except.error (wrongRootCountMsg a b)) := by
  rcases correct_shape msg parity with h1 | ⟨_, a, b, h2⟩
  · left
    cases hc : (correct msg parity).1 with
    | ok g => exact ⟨g, rfl⟩
    | error e => rw [hc] at h1; cases h1
  · exact Or.inr ⟨a, b, h2⟩


/-! ## Claim C2: Reed-Solomon round-trip.  The key fact is that the
syndromes of an encoded codeword vanish; the development below proves it
for every parity length, by a Horner-sum invariant of the encoder LFSR. -/

/-- Horner evaluation as folded by `syndromes` (coefficients arrive from
the highest power down). -/
def hornerZ (z : G) (l : List G) : G := l.foldl (fun s b => b + z * s) 0

/-- Sum form of an LFSR state: `st[0] + st[1] z + ... + st[e-1] z^(e-1)`. -/
def stEval (z : G) (st : List G) : G :=
  ∑ i in Finset.range st.length, polyGet st i * z ^ i

theorem hornerZ_foldl_shift (z : G) (l : List G) (a : G) :
    l.foldl (fun s b => b + z * s) a = hornerZ z l + a * z ^ l.length := by
  induction l generalizing a with
  | nil => simp [hornerZ]
  | cons x xs ih =>
    show xs.foldl _ (x + z * a) = hornerZ z (x :: xs) + a * z ^ (x :: xs).length
    have h1 : hornerZ z (x :: xs) = xs.foldl (fun s b => b + z * s) (x + z * 0) := rfl
    rw [ih (x + z * a), h1, ih (x + z * 0)]
    simp only [List.length_cons]
    ring

theorem hornerZ_append (z : G) (l1 l2 : List G) :
    hornerZ z (l1 ++ l2) = hornerZ z l2 + hornerZ z l1 * z ^ l2.length := by
  unfold hornerZ
  rw [List.foldl_append]
  rw [show l1.foldl (fun s b => b + z * s) 0 = hornerZ z l1 from rfl]
  exact hornerZ_foldl_shift z l2 (hornerZ z l1)

theorem hornerZ_snoc (z : G) (l : List G) (m : G) :
    hornerZ z (l ++ [m]) = m + z * hornerZ z l := by
  rw [hornerZ_append]
  have h1 : hornerZ z [m] = m := by simp [hornerZ]
  rw [h1]
  simp only [List.length_cons, List.length_nil]
  ring

theorem getD_map_range (f : Nat → G) (n k : Nat) :
    ((List.range n).map f).getD k 0 = if k < n then f k else 0 := by
  rcases Nat.lt_or_ge k n with h | h
  · rw [if_pos h]
    rw [List.getD_eq_getElem?_getD]
    rw [List.getElem?_map]
    rw [List.getElem?_range h]
    rfl
  · rw [if_neg (by omega)]
    apply List.getD_eq_default
    simpa using h

theorem lfsrStep_length (gen : List G) (e : Nat) (st : List G) (m : G) :
    (lfsrStep gen e st m).length = e := by
  unfold lfsrStep
  simp

theorem lfsrStep_getD (gen : List G) (e : Nat) (st : List G) (m : G) (j : Nat) (hj : j < e) :
    polyGet (lfsrStep gen e st m) j =
      (if j = 0 then polyGet gen 0 * (m + polyGet st (e - 1))
       else polyGet st (j - 1) + polyGet gen j * (m + polyGet st (e - 1))) := by
  unfold lfsrStep polyGet
  rw [getD_map_range, if_pos hj]

/-- The single-step LFSR invariant: feeding byte `m` multiplies the state
value by `z` and adds `m z^e`, provided `z` is a root of the (monic,
degree-`e`) generator in the summed form `hgen`. -/
theorem lfsrStep_stEval (gen : List G) (e : Nat) (he : 1 ≤ e) (z : G)
    (hgen : ∑ i in Finset.range e, polyGet gen i * z ^ i = z ^ e)
    (st : List G) (hst : st.length = e) (m : G) :
    stEval z (lfsrStep gen e st m) = m * z ^ e + z * stEval z st := by
  obtain ⟨e1, rfl⟩ : ∃ e1, e = e1 + 1 := ⟨e - 1, by omega⟩
  unfold stEval
  rw [lfsrStep_length, hst]
  rw [Finset.sum_range_succ']
  rw [lfsrStep_getD gen (e1 + 1) st m 0 (by omega), if_pos rfl]
  have hterm : ∀ i ∈ Finset.range e1,
      polyGet (lfsrStep gen (e1 + 1) st m) (i + 1) * z ^ (i + 1)
        = polyGet st i * z ^ (i + 1)
          + polyGet gen (i + 1) * z ^ (i + 1) * (m + polyGet st (e1 + 1 - 1)) := by
    intro i hi
    have hilt := Finset.mem_range.mp hi
    rw [lfsrStep_getD gen (e1 + 1) st m (i + 1) (by omega), if_neg (by omega)]
    simp only [Nat.add_sub_cancel]
    ring
  rw [Finset.sum_congr rfl hterm, Finset.sum_add_distrib]
  have hgsum : ∑ i in Finset.range e1,
      polyGet gen (i + 1) * z ^ (i + 1) * (m + polyGet st (e1 + 1 - 1))
      = (z ^ (e1 + 1) - polyGet gen 0) * (m + polyGet st (e1 + 1 - 1)) := by
    rw [← Finset.sum_mul]
    have h5 : ∑ i in Finset.range e1, polyGet gen (i + 1) * z ^ (i + 1)
        = z ^ (e1 + 1) - polyGet gen 0 := by
      have h6 := hgen
      rw [Finset.sum_range_succ'] at h6
      have h7 : (∑ i in Finset.range e1, polyGet gen (i + 1) * z ^ (i + 1))
          = z ^ (e1 + 1) - polyGet gen 0 * z ^ 0 := by
        rw [← h6]
        ring
      rw [h7]
      ring
    rw [h5]
  have hssum : ∑ i in Finset.range e1, polyGet st i * z ^ (i + 1)
      = z * (∑ i in Finset.range (e1 + 1), polyGet st i * z ^ i)
        - polyGet st e1 * z ^ (e1 + 1) := by
    rw [Finset.sum_range_succ, mul_add, Finset.mul_sum]
    have h3 : ∀ i ∈ Finset.range e1, z * (polyGet st i * z ^ i) = polyGet st i * z ^ (i + 1) :=
      fun i _ => by ring
    rw [Finset.sum_congr rfl h3]
    ring
  rw [hgsum, hssum]
  simp only [Nat.add_sub_cancel]
  ring


theorem stEval_replicate_zero (z : G) (e : Nat) : stEval z (List.replicate e 0) = 0 := by
  unfold stEval
  apply Finset.sum_eq_zero
  intro i _
  have : polyGet (List.replicate e (0 : G)) i = 0 := by
    unfold polyGet
    rcases Nat.lt_or_ge i e with h | h
    · rw [List.getD_eq_getElem?_getD, List.getElem?_replicate, if_pos h]
      rfl
    · exact List.getD_eq_default _ _ (by simpa using h)
  rw [this, zero_mul]

theorem lfsr_foldl_length (gen : List G) (e : Nat) (msg : List G) :
    ∀ st : List G, st.length = e → (msg.foldl (lfsrStep gen e) st).length = e := by
  induction msg with
  | nil => intro st hst; exact hst
  | cons x xs ih =>
    intro st _
    exact ih _ (lfsrStep_length gen e st x)

/-- The LFSR fold invariant: after processing `msg`, the state value at a
generator root `z` is `hornerZ z msg * z^e`. -/
theorem lfsr_invariant (gen : List G) (e : Nat) (he : 1 ≤ e) (z : G)
    (hgen : ∑ i in Finset.range e, polyGet gen i * z ^ i = z ^ e) (msg : List G) :
    stEval z (msg.foldl (lfsrStep gen e) (List.replicate e 0)) = hornerZ z msg * z ^ e := by
  induction msg using List.reverseRecOn with
  | nil =>
    rw [List.foldl_nil, stEval_replicate_zero]
    simp [hornerZ]
  | append_singleton l m ih =>
    rw [List.foldl_append, List.foldl_cons, List.foldl_nil]
    rw [lfsrStep_stEval gen e he z hgen _
      (lfsr_foldl_length gen e l _ (List.length_replicate _ _)) m]
    rw [ih, hornerZ_snoc]
    ring

theorem hornerZ_revRange (f : Nat → G) (k : Nat) (z : G) :
    hornerZ z ((List.range k).reverse.map f) = ∑ i in Finset.range k, f i * z ^ i := by
  induction k with
  | zero => simp [hornerZ]
  | succ n ih =>
    rw [List.range_succ, List.reverse_append]
    show hornerZ z (f n :: (List.range n).reverse.map f) = _
    have h1 : hornerZ z (f n :: (List.range n).reverse.map f)
        = hornerZ z ((List.range n).reverse.map f) + (f n + z * 0) * z ^ n := by
      show ((List.range n).reverse.map f).foldl _ (f n + z * 0) = _
      rw [hornerZ_foldl_shift]
      simp
    rw [h1, ih, Finset.sum_range_succ]
    ring

theorem rsEncode_length (e : Nat) (msg : List G) : (rsEncode e msg).length = e := by
  unfold rsEncode
  simp

/-- The syndromes of an encoded codeword all vanish, so `syndromes`
returns `none`, provided every evaluation point `EXP[j]` (for `j` below
the parity length) is a root of the generator in the summed, monic form. -/
theorem syndromes_rsEncode (e : Nat) (he : 1 ≤ e) (he2 : e < 256) (msg : List G)
    (hgen : ∀ j, j < e →
      ∑ i in Finset.range e, polyGet (polyGenerator e) i * (gexpG j) ^ i = (gexpG j) ^ e) :
    syndromes msg (rsEncode e msg) = none := by
  unfold syndromes
  rw [rsEncode_length, Nat.mod_eq_of_lt he2]
  have hall : ((List.range e).map fun j =>
      (msg ++ rsEncode e msg).foldl (fun sum b => b + gexpG j * sum) 0).all (fun s => s == 0)
      = true := by
    rw [List.all_eq_true]
    intro x hx
    rw [List.mem_map] at hx
    obtain ⟨j, hj, rfl⟩ := hx
    rw [List.mem_range] at hj
    have hz : (msg ++ rsEncode e msg).foldl (fun sum b => b + gexpG j * sum) 0
        = hornerZ (gexpG j) (msg ++ rsEncode e msg) := rfl
    rw [hz, hornerZ_append, rsEncode_length]
    have hpar : hornerZ (gexpG j) (rsEncode e msg)
        = hornerZ (gexpG j) msg * (gexpG j) ^ e := by
      show hornerZ (gexpG j) ((List.range e).reverse.map _) = _
      rw [hornerZ_revRange]
      rw [show (∑ i in Finset.range e,
        polyGet (msg.foldl (lfsrStep (polyGenerator e) e) (List.replicate e 0)) i * (gexpG j) ^ i)
          = stEval (gexpG j) (msg.foldl (lfsrStep (polyGenerator e) e) (List.replicate e 0)) by
        unfold stEval
        rw [lfsr_foldl_length _ _ _ _ (List.length_replicate _ _)]]
      exact lfsr_invariant (polyGenerator e) e he (gexpG j) (hgen j hj) msg
    rw [hpar]
    have : hornerZ (gexpG j) msg * gexpG j ^ e + hornerZ (gexpG j) msg * gexpG j ^ e = 0 :=
      G.add_self_eq_zero _
    rw [this]
    rfl
  rw [if_pos hall]


/-! ### Structure of `Poly::generator`: monic of degree `nbytes`, with the
product form that exhibits `EXP[0], ..., EXP[nbytes-1]` as roots. -/

theorem polyGet_replicate (e : Nat) (k : Nat) : polyGet (List.replicate e (0 : G)) k = 0 := by
  unfold polyGet
  rcases Nat.lt_or_ge k e with h | h
  · rw [List.getD_eq_getElem?_getD, List.getElem?_replicate, if_pos h]
    rfl
  · exact List.getD_eq_default _ _ (by simpa using h)

theorem polyGet_set (l : List G) (i : Nat) (v : G) (k : Nat) :
    polyGet (l.set i v) k = if i = k ∧ i < l.length then v else polyGet l k := by
  unfold polyGet
  rw [List.getD_eq_getElem?_getD, List.getD_eq_getElem?_getD, List.getElem?_set]
  by_cases h1 : i = k
  · subst h1
    by_cases h2 : i < l.length
    · rw [if_pos rfl, if_pos h2, if_pos ⟨rfl, h2⟩]
      rfl
    · rw [if_pos rfl, if_neg h2, if_neg (by tauto), List.getElem?_eq_none (by omega)]
  · rw [if_neg h1, if_neg (by tauto)]

/-- Coefficient `k` of the raw (pre-`simplify`) product. -/
def convCoef (p q : List G) (k : Nat) : G :=
  ∑ i in Finset.range (k + 1), polyGet p i * polyGet q (k - i)

theorem convCoef_vanish (p q : List G) (k : Nat) (hk : p.length + q.length ≤ k) :
    convCoef p q k = 0 := by
  unfold convCoef
  apply Finset.sum_eq_zero
  intro i hi
  rcases Nat.lt_or_ge i p.length with h | h
  · have : polyGet q (k - i) = 0 := List.getD_eq_default _ _ (by omega)
    rw [this, mul_zero]
  · have : polyGet p i = 0 := List.getD_eq_default _ _ (by simpa using h)
    rw [this, zero_mul]

theorem polyDegreeAux_spec (p : List G) :
    ∀ n, n ≤ p.length → ∀ i, polyDegreeAux p n < i → i < n → polyGet p i = 0 := by
  intro n
  induction n with
  | zero => intro _ i _ hi; omega
  | succ m ih =>
    intro hn i hgt hlt
    match m, hgt, hlt with
    | 0, _, hlt => omega
    | m' + 1, hgt, hlt =>
      rw [polyDegreeAux] at hgt
      by_cases hz : polyGet p (m' + 1) ≠ 0
      · rw [if_pos hz] at hgt
        omega
      · rw [if_neg hz] at hgt
        push_neg at hz
        rcases Nat.lt_or_ge i (m' + 2) with h2 | h2
        · rcases Nat.eq_or_lt_of_le (Nat.lt_succ_iff.mp h2) with h3 | h3
          · rw [h3]; exact hz
          · exact ih (by omega) i hgt h3
        · omega

theorem polyGet_above_degree (p : List G) (i : Nat) (hi : polyDegree p < i) : polyGet p i = 0 := by
  rcases Nat.lt_or_ge i p.length with h | h
  · exact polyDegreeAux_spec p p.length le_rfl i hi h
  · exact List.getD_eq_default _ _ (by simpa using h)

theorem polyGet_simplify (l : List G) (k : Nat) : polyGet (polySimplify l) k = polyGet l k := by
  unfold polySimplify polyGet
  rcases Nat.lt_or_ge k (polyDegree l + 1) with h | h
  · rw [List.getD_eq_getElem?_getD, List.getD_eq_getElem?_getD, List.getElem?_take_of_lt h]
  · rw [List.getD_eq_getElem?_getD,
      List.getElem?_eq_none (by rw [List.length_take]; omega)]
    rw [show (l.getD k 0 : G) = polyGet l k from rfl, polyGet_above_degree l k (by omega)]
    rfl

/-- Every coefficient of the source polynomial product is the convolution
sum, out-of-range indices included. -/
theorem polyMulSrc_getD (p q : List G) (k : Nat) :
    polyGet (polyMulSrc p q) k = convCoef p q k := by
  unfold polyMulSrc
  rw [polyGet_simplify]
  show ((List.range (q.length + p.length + 1)).map fun k => convCoef p q k).getD k 0 = _
  rw [show (((List.range (q.length + p.length + 1)).map fun k => convCoef p q k).getD k 0)
      = polyGet ((List.range (q.length + p.length + 1)).map fun k => convCoef p q k) k from rfl]
  unfold polyGet
  rw [getD_map_range]
  split
  · rfl
  · rename_i h
    exact (convCoef_vanish p q k (by omega)).symm

/-- The `x + c` multiplier `tp` used by `Poly::generator`
(`tp[0] = c`, `tp[1] = 1`, zero elsewhere). -/
def genTP (e : Nat) (c : G) : List G := ((List.replicate e (0 : G)).set 1 1).set 0 c

theorem genTP_get (e : Nat) (he : 2 ≤ e) (c : G) (k : Nat) :
    polyGet (genTP e c) k = if k = 0 then c else if k = 1 then 1 else 0 := by
  unfold genTP
  rw [polyGet_set, polyGet_set]
  rcases eq_or_ne k 0 with h0 | h0
  · subst h0
    rw [if_pos ⟨rfl, by simpa using (by omega : 0 < e)⟩, if_pos rfl]
  · rw [if_neg (by omega)]
    rcases eq_or_ne k 1 with h1 | h1
    · subst h1
      rw [if_pos ⟨rfl, by simpa using (by omega : 1 < e)⟩, if_neg (by omega), if_pos rfl]
    · rw [if_neg (by omega), if_neg h0, if_neg h1, polyGet_replicate]

/-- Multiplying by `x + c` acts on coefficients as
`c * p_k + p_(k-1)` (with no second term at `k = 0`). -/
theorem polyMulSrc_genTP_get (p : List G) (e : Nat) (he : 2 ≤ e) (c : G) (k : Nat) :
    polyGet (polyMulSrc p (genTP e c)) k
      = c * polyGet p k + (if k = 0 then 0 else polyGet p (k - 1)) := by
  rw [polyMulSrc_getD]
  unfold convCoef
  match k with
  | 0 =>
    rw [Finset.sum_range_one, genTP_get e he c 0, if_pos rfl, if_pos rfl]
    ring
  | k' + 1 =>
    rw [Finset.sum_range_succ, Finset.sum_range_succ]
    have hzero : ∀ i ∈ Finset.range k', polyGet p i * polyGet (genTP e c) (k' + 1 - i) = 0 := by
      intro i hi
      have hilt := Finset.mem_range.mp hi
      rw [genTP_get e he c _, if_neg (by omega), if_neg (by omega), mul_zero]
    rw [Finset.sum_eq_zero hzero]
    have e1 : k' + 1 - k' = 1 := by omega
    have e2 : k' + 1 - (k' + 1) = 0 := by omega
    rw [e1, e2, genTP_get e he c 1, genTP_get e he c 0]
    rw [if_neg (by omega), if_pos rfl, if_pos rfl]
    simp only [Nat.add_sub_cancel, if_neg (Nat.succ_ne_zero k')]
    ring


/-- The generator's starting polynomial `x + 1`, as `Poly::generator`
writes it into its zero vector. -/
def genBase (e : Nat) : List G := ((List.replicate e (0 : G)).set 0 1).set 1 1

/-- Partial generator product after `t` of the `x + alpha^i` factors. -/
def genIter (e t : Nat) : List G :=
  (List.range t).foldl
    (fun gp i => polyMulSrc gp (genTP e (gexpG ((i + 1) % 256)))) (genBase e)

theorem polyGenerator_eq_genIter (e : Nat) (he : 2 ≤ e) :
    polyGenerator e = genIter e (e - 1) := by
  unfold polyGenerator
  rw [if_neg (by omega)]
  rfl

theorem genIter_succ (e t : Nat) :
    genIter e (t + 1) = polyMulSrc (genIter e t) (genTP e (gexpG ((t + 1) % 256))) := by
  unfold genIter
  rw [List.range_succ, List.foldl_append, List.foldl_cons, List.foldl_nil]

theorem genBase_get (e : Nat) (he : 2 ≤ e) (k : Nat) :
    polyGet (genBase e) k = if k ≤ 1 then 1 else 0 := by
  unfold genBase
  rw [polyGet_set, polyGet_set]
  simp only [List.length_set, List.length_replicate]
  rcases eq_or_ne k 1 with h1 | h1
  · subst h1
    rw [if_pos ⟨rfl, by omega⟩, if_pos (by omega)]
  · rw [if_neg (by omega)]
    rcases eq_or_ne k 0 with h0 | h0
    · subst h0
      rw [if_pos ⟨rfl, by omega⟩, if_pos (by omega)]
    · rw [if_neg (by omega), polyGet_replicate, if_neg (by omega)]

theorem gexpG_zero : gexpG 0 = 1 := by decide

theorem G.eq_of_add_eq_zero {x y : G} (h : x + y = 0) : x = y := by
  have h2 : x + y + y = 0 + y := by rw [h]
  rwa [add_assoc, G.add_self_eq_zero, add_zero, zero_add] at h2

/-- Invariant of the generator fold: after `t` factors the polynomial is
monic of degree `t + 1`, zero above it, and its coefficient sum evaluates
to the product of the linear factors built in so far. -/
theorem genIter_invariant (e : Nat) (he : 2 ≤ e) (t : Nat) :
    polyGet (genIter e t) (t + 1) = 1 ∧
    (∀ k, t + 1 < k → polyGet (genIter e t) k = 0) ∧
    (∀ z : G, ∑ i in Finset.range (t + 2), polyGet (genIter e t) i * z ^ i
      = ∏ i in Finset.range (t + 1), (z + gexpG (i % 256))) := by
  induction t with
  | zero =>
    refine ⟨?_, ?_, ?_⟩
    · show polyGet (genBase e) 1 = 1
      rw [genBase_get e he, if_pos (by omega)]
    · intro k hk
      show polyGet (genBase e) k = 0
      rw [genBase_get e he, if_neg (by omega)]
    · intro z
      show ∑ i in Finset.range 2, polyGet (genBase e) i * z ^ i = _
      rw [Finset.prod_range_one, Finset.sum_range_succ, Finset.sum_range_one]
      rw [genBase_get e he 0, genBase_get e he 1, if_pos (by omega), if_pos (by omega)]
      rw [show (0 : Nat) % 256 = 0 from rfl, gexpG_zero]
      ring
  | succ t ih =>
    obtain ⟨ihA, ihB, ihC⟩ := ih
    have hmul := fun k => polyMulSrc_genTP_get (genIter e t) e he (gexpG ((t + 1 + 1 - 1) % 256)) k
    refine ⟨?_, ?_, ?_⟩
    · rw [genIter_succ]
      rw [show t + 1 + 1 - 1 = t + 1 from by omega] at hmul
      rw [hmul (t + 2), if_neg (by omega)]
      rw [ihB (t + 2) (by omega), show t + 2 - 1 = t + 1 from by omega, ihA]
      show gexpG ((t + 1) % 256) * 0 + 1 = 1
      rw [mul_zero, zero_add]
    · intro k hk
      rw [genIter_succ]
      rw [show t + 1 + 1 - 1 = t + 1 from by omega] at hmul
      rw [hmul k, if_neg (by omega)]
      rw [ihB k (by omega), ihB (k - 1) (by omega), mul_zero, zero_add]
    · intro z
      rw [genIter_succ]
      rw [show t + 1 + 1 - 1 = t + 1 from by omega] at hmul
      have hterm : ∀ i ∈ Finset.range (t + 3),
          polyGet (polyMulSrc (genIter e t) (genTP e (gexpG ((t + 1) % 256)))) i * z ^ i
            = gexpG ((t + 1) % 256) * polyGet (genIter e t) i * z ^ i
              + (if i = 0 then 0 else polyGet (genIter e t) (i - 1)) * z ^ i := by
        intro i _
        rw [hmul i]
        ring
      rw [show t + 1 + 2 = t + 3 from by omega]
      rw [Finset.sum_congr rfl hterm, Finset.sum_add_distrib]
      have hfirst : ∑ i in Finset.range (t + 3),
          gexpG ((t + 1) % 256) * polyGet (genIter e t) i * z ^ i
            = gexpG ((t + 1) % 256) * ∑ i in Finset.range (t + 2), polyGet (genIter e t) i * z ^ i := by
        rw [Finset.mul_sum]
        rw [show t + 3 = (t + 2) + 1 from by omega, Finset.sum_range_succ]
        rw [ihB (t + 2) (by omega)]
        have : ∀ i ∈ Finset.range (t + 2),
            gexpG ((t + 1) % 256) * polyGet (genIter e t) i * z ^ i
              = gexpG ((t + 1) % 256) * (polyGet (genIter e t) i * z ^ i) := fun i _ => by ring
        rw [Finset.sum_congr rfl this]
        ring
      have hsecond : ∑ i in Finset.range (t + 3),
          (if i = 0 then 0 else polyGet (genIter e t) (i - 1)) * z ^ i
            = z * ∑ i in Finset.range (t + 2), polyGet (genIter e t) i * z ^ i := by
        rw [show t + 3 = (t + 2) + 1 from by omega, Finset.sum_range_succ']
        rw [if_pos rfl, Finset.mul_sum]
        have : ∀ i ∈ Finset.range (t + 2),
            (if i + 1 = 0 then 0 else polyGet (genIter e t) (i + 1 - 1)) * z ^ (i + 1)
              = z * (polyGet (genIter e t) i * z ^ i) := by
          intro i _
          rw [if_neg (Nat.succ_ne_zero i)]
          simp only [Nat.add_sub_cancel]
          ring
        rw [Finset.sum_congr rfl this]
        ring
      rw [hfirst, hsecond, ihC z]
      conv_rhs => rw [Finset.prod_range_succ]
      ring

theorem polyGenerator_monic (e : Nat) (he : 2 ≤ e) : polyGet (polyGenerator e) e = 1 := by
  obtain ⟨e2, rfl⟩ : ∃ e2, e = e2 + 2 := ⟨e - 2, by omega⟩
  rw [polyGenerator_eq_genIter _ he]
  exact (genIter_invariant (e2 + 2) he (e2 + 1)).1

theorem polyGenerator_sum_eval (e : Nat) (he : 2 ≤ e) (z : G) :
    ∑ i in Finset.range (e + 1), polyGet (polyGenerator e) i * z ^ i
      = ∏ i in Finset.range e, (z + gexpG (i % 256)) := by
  obtain ⟨e2, rfl⟩ : ∃ e2, e = e2 + 2 := ⟨e - 2, by omega⟩
  rw [polyGenerator_eq_genIter _ he]
  exact (genIter_invariant (e2 + 2) he (e2 + 1)).2.2 z

/-- Every `EXP[j]` with `j` below the parity count is a root of the
generator, stated in the summed monic form the LFSR invariant consumes. -/
theorem polyGenerator_hgen (e : Nat) (he : 2 ≤ e) (he2 : e ≤ 256) (j : Nat) (hj : j < e) :
    ∑ i in Finset.range e, polyGet (polyGenerator e) i * (gexpG j) ^ i = (gexpG j) ^ e := by
  have hsum := polyGenerator_sum_eval e he (gexpG j)
  have hzero : ∏ i in Finset.range e, ((gexpG j) + gexpG (i % 256)) = 0 := by
    apply Finset.prod_eq_zero (Finset.mem_range.mpr hj)
    rw [Nat.mod_eq_of_lt (by omega)]
    exact G.add_self_eq_zero _
  rw [hzero, Finset.sum_range_succ, polyGenerator_monic e he, one_mul] at hsum
  exact G.eq_of_add_eq_zero hsum

/-- The general Reed-Solomon round trip: for any message and any parity
count `e` in `[2, 255]`, decoding an encoded message succeeds with grade 4
and leaves the message unchanged. -/
theorem correct_rsEncode_roundtrip (e : Nat) (he : 2 ≤ e) (he2 : e < 256) (msg : List G) :
    correct msg (rsEncode e msg) = (Except.ok 4, msg) := by
  have hs := syndromes_rsEncode e (by omega) he2 msg
    (fun j hj => polyGenerator_hgen e he (by omega) j hj)
  unfold correct
  rw [hs]


section QrTables

/-- `ErrorCorrectionLevel` from lib.rs. -/
inductive ErrorCorrectionLevel where
  | L
  | M
  | Q
  | H
deriving DecidableEq

/-- The declared discriminants (L = 1, M = 0, Q = 3, H = 2): this is the
value of `ec as usize` used to index every per-level table. -/
def ErrorCorrectionLevel.toIndex : ErrorCorrectionLevel → Nat
  | .L => 1
  | .M => 0
  | .Q => 3
  | .H => 2

/-- `n_codewords` from qr.rs. Rust indexes `[version as usize - 1]` and
panics outside 1..=40; the 0 default stands in for the panic. -/
def n_codewords (version : Nat) : Nat :=
  [26, 44, 70, 100, 134, 172, 196, 242, 292, 346, 404, 466, 532, 581, 655, 733, 815, 901, 991, 1085, 1156, 1258, 1364, 1474, 1588, 1706, 1828, 1921, 2051, 2185, 2323, 2465, 2611, 2761, 2876, 3034, 3196, 3362, 3532, 3706].getD (version - 1) 0

/-- `n_remainder_bits` from qr.rs, with the same indexing convention. -/
def n_remainder_bits (version : Nat) : Nat :=
  [0, 7, 7, 7, 7, 7, 0, 0, 0, 0, 0, 0, 0, 3, 3, 3, 3, 3, 3, 3, 4, 4, 4, 4, 4, 4, 4, 3, 3, 3, 3, 3, 3, 3, 0, 0, 0, 0, 0, 0].getD (version - 1) 0

/-- `n_ec_codewords` from qr.rs: row `version - 1`, column `ec as usize`. -/
def n_ec_codewords (version ec : Nat) : Nat :=
  (([[10, 7, 17, 13],
   [16, 10, 28, 22],
   [26, 15, 44, 36],
   [36, 20, 64, 52],
   [48, 26, 88, 72],
   [64, 36, 112, 96],
   [72, 40, 130, 108],
   [88, 48, 156, 132],
   [110, 60, 192, 160],
   [130, 72, 224, 192],
   [150, 80, 264, 224],
   [176, 96, 308, 260],
   [198, 104, 352, 288],
   [216, 120, 384, 320],
   [240, 132, 432, 360],
   [280, 144, 480, 408],
   [308, 168, 532, 448],
   [338, 180, 588, 504],
   [364, 196, 650, 546],
   [416, 224, 700, 600],
   [442, 224, 750, 644],
   [476, 252, 816, 690],
   [504, 270, 900, 750],
   [560, 300, 960, 810],
   [588, 312, 1050, 870],
   [644, 336, 1110, 952],
   [700, 360, 1200, 1020],
   [728, 390, 1260, 1050],
   [784, 420, 1350, 1140],
   [812, 450, 1440, 1200],
   [868, 480, 1530, 1290],
   [924, 510, 1620, 1350],
   [980, 540, 1710, 1440],
   [1036, 570, 1800, 1530],
   [1064, 570, 1890, 1590],
   [1120, 600, 1980, 1680],
   [1204, 630, 2100, 1770],
   [1260, 660, 2220, 1860],
   [1316, 720, 2310, 1950],
   [1372, 750, 2430, 2040]] : List (List Nat)).getD (version - 1) []).getD ec 0

/-- `ECB` from qr.rs: `n` blocks, each of `c` total codewords carrying `k`
data codewords, correcting `r` errors. -/
structure ECB where
  n : Nat
  c : Nat
  k : Nat
  r : Nat
deriving DecidableEq

/-- `ECB::new` from qr.rs. -/
def ECB.new (e : List Nat) : ECB :=
  ⟨e.getD 0 0, e.getD 1 0, e.getD 2 0, e.getD 3 0⟩

/-- The 40 x 4 x 2 x 4 table literal inside `ec_blocks` (qr.rs), rows in
version order, columns in discriminant order M, L, H, Q. -/
def EC_BLOCKS_TABLE : List (List (List (List Nat))) :=
  [[[[1, 26, 16, 4], [0, 0, 0, 0]],
    [[1, 26, 19, 2], [0, 0, 0, 0]],
    [[1, 26, 9, 8], [0, 0, 0, 0]],
    [[1, 26, 13, 6], [0, 0, 0, 0]]],
   [[[1, 44, 28, 8], [0, 0, 0, 0]],
    [[1, 44, 34, 4], [0, 0, 0, 0]],
    [[1, 44, 16, 14], [0, 0, 0, 0]],
    [[1, 44, 22, 11], [0, 0, 0, 0]]],
   [[[1, 70, 44, 13], [0, 0, 0, 0]],
    [[1, 70, 55, 7], [0, 0, 0, 0]],
    [[2, 35, 13, 11], [0, 0, 0, 0]],
    [[2, 35, 17, 9], [0, 0, 0, 0]]],
   [[[2, 50, 32, 9], [0, 0, 0, 0]],
    [[1, 100, 80, 10], [0, 0, 0, 0]],
    [[4, 25, 9, 8], [0, 0, 0, 0]],
    [[2, 50, 24, 13], [0, 0, 0, 0]]],
   [[[2, 67, 43, 12], [0, 0, 0, 0]],
    [[1, 134, 108, 13], [0, 0, 0, 0]],
    [[2, 33, 11, 11], [2, 34, 12, 11]],
    [[2, 33, 15, 9], [2, 34, 16, 9]]],
   [[[4, 43, 27, 8], [0, 0, 0, 0]],
    [[2, 86, 68, 9], [0, 0, 0, 0]],
    [[4, 43, 15, 14], [0, 0, 0, 0]],
    [[4, 43, 19, 12], [0, 0, 0, 0]]],
   [[[4, 49, 31, 9], [0, 0, 0, 0]],
    [[2, 98, 78, 10], [0, 0, 0, 0]],
    [[4, 39, 13, 13], [1, 40, 14, 13]],
    [[2, 32, 14, 9], [4, 33, 15, 9]]],
   [[[2, 60, 38, 11], [2, 61, 39, 11]],
    [[2, 121, 97, 12], [0, 0, 0, 0]],
    [[4, 40, 14, 13], [2, 41, 15, 13]],
    [[4, 40, 18, 11], [2, 41, 19, 11]]],
   [[[3, 58, 36, 11], [2, 59, 37, 11]],
    [[2, 146, 116, 15], [0, 0, 0, 0]],
    [[4, 36, 12, 12], [4, 37, 13, 12]],
    [[4, 36, 16, 10], [4, 37, 17, 10]]],
   [[[4, 69, 43, 13], [1, 70, 44, 13]],
    [[2, 86, 68, 9], [2, 87, 69, 9]],
    [[6, 43, 15, 14], [2, 44, 16, 14]],
    [[6, 43, 19, 12], [2, 44, 20, 12]]],
   [[[1, 80, 50, 15], [4, 81, 51, 15]],
    [[4, 101, 81, 10], [0, 0, 0, 0]],
    [[3, 36, 12, 12], [8, 37, 13, 12]],
    [[4, 50, 22, 14], [4, 51, 23, 14]]],
   [[[6, 58, 36, 11], [2, 59, 37, 11]],
    [[2, 116, 92, 12], [2, 117, 93, 12]],
    [[7, 42, 14, 14], [4, 43, 15, 14]],
    [[4, 46, 20, 13], [6, 47, 21, 13]]],
   [[[8, 59, 37, 11], [1, 60, 38, 11]],
    [[4, 133, 107, 13], [0, 0, 0, 0]],
    [[12, 33, 11, 11], [4, 34, 12, 11]],
    [[8, 44, 20, 12], [4, 45, 21, 12]]],
   [[[4, 64, 40, 12], [5, 65, 41, 12]],
    [[3, 145, 115, 15], [1, 146, 116, 15]],
    [[11, 36, 12, 12], [5, 37, 13, 12]],
    [[11, 36, 16, 10], [5, 37, 17, 10]]],
   [[[5, 65, 41, 12], [5, 66, 42, 12]],
    [[5, 109, 87, 11], [1, 110, 88, 11]],
    [[11, 36, 12, 12], [7, 37, 13, 12]],
    [[5, 54, 24, 15], [7, 55, 25, 15]]],
   [[[7, 73, 45, 14], [3, 74, 46, 14]],
    [[5, 122, 98, 12], [1, 123, 99, 12]],
    [[3, 45, 15, 15], [13, 46, 16, 15]],
    [[15, 43, 19, 12], [2, 44, 20, 12]]],
   [[[10, 74, 46, 14], [1, 75, 47, 14]],
    [[1, 135, 107, 14], [5, 136, 108, 14]],
    [[2, 42, 14, 14], [17, 43, 15, 14]],
    [[1, 50, 22, 14], [15, 51, 23, 14]]],
   [[[9, 69, 43, 13], [4, 70, 44, 13]],
    [[5, 150, 120, 15], [1, 151, 121, 15]],
    [[2, 42, 14, 14], [19, 43, 15, 14]],
    [[17, 50, 22, 14], [1, 51, 23, 14]]],
   [[[3, 70, 44, 13], [11, 71, 45, 13]],
    [[3, 141, 113, 14], [4, 142, 114, 14]],
    [[9, 39, 13, 13], [16, 40, 14, 13]],
    [[17, 47, 21, 13], [4, 48, 22, 13]]],
   [[[3, 67, 41, 13], [13, 68, 42, 13]],
    [[3, 135, 107, 14], [5, 136, 108, 14]],
    [[15, 43, 15, 14], [10, 44, 16, 14]],
    [[15, 54, 24, 15], [5, 55, 25, 15]]],
   [[[17, 68, 42, 13], [0, 0, 0, 0]],
    [[4, 144, 116, 14], [4, 145, 117, 14]],
    [[19, 46, 16, 15], [6, 47, 17, 15]],
    [[17, 50, 22, 14], [6, 51, 23, 14]]],
   [[[17, 74, 46, 14], [0, 0, 0, 0]],
    [[2, 139, 111, 14], [7, 140, 112, 14]],
    [[34, 37, 13, 12], [0, 0, 0, 0]],
    [[7, 54, 24, 15], [16, 55, 25, 15]]],
   [[[4, 75, 47, 14], [14, 76, 48, 14]],
    [[4, 151, 121, 15], [5, 152, 122, 15]],
    [[16, 45, 15, 15], [14, 46, 16, 15]],
    [[11, 54, 24, 15], [14, 55, 25, 15]]],
   [[[6, 73, 45, 14], [14, 74, 46, 14]],
    [[6, 147, 117, 15], [4, 148, 118, 15]],
    [[30, 46, 16, 15], [2, 47, 17, 15]],
    [[11, 54, 24, 15], [16, 55, 25, 15]]],
   [[[8, 75, 47, 14], [13, 76, 48, 14]],
    [[8, 132, 106, 13], [4, 133, 107, 13]],
    [[22, 45, 15, 15], [13, 46, 16, 15]],
    [[7, 54, 24, 15], [22, 55, 25, 15]]],
   [[[19, 74, 46, 14], [4, 75, 47, 14]],
    [[10, 142, 114, 14], [2, 143, 115, 14]],
    [[33, 46, 16, 15], [4, 47, 17, 15]],
    [[28, 50, 22, 14], [6, 51, 23, 14]]],
   [[[22, 73, 45, 14], [3, 74, 46, 14]],
    [[8, 152, 122, 15], [4, 153, 123, 15]],
    [[12, 45, 15, 15], [28, 46, 16, 15]],
    [[8, 53, 23, 15], [26, 54, 24, 15]]],
   [[[3, 73, 45, 14], [23, 74, 46, 14]],
    [[3, 147, 117, 15], [10, 148, 118, 15]],
    [[11, 45, 15, 15], [31, 46, 16, 15]],
    [[4, 54, 24, 15], [31, 55, 25, 15]]],
   [[[21, 73, 45, 14], [7, 74, 46, 14]],
    [[7, 146, 116, 15], [7, 147, 117, 15]],
    [[19, 45, 15, 15], [26, 46, 16, 15]],
    [[1, 53, 23, 15], [37, 54, 24, 15]]],
   [[[19, 75, 47, 14], [10, 76, 48, 14]],
    [[5, 145, 115, 15], [10, 146, 116, 15]],
    [[23, 45, 15, 15], [25, 46, 16, 15]],
    [[15, 54, 24, 15], [25, 55, 25, 15]]],
   [[[2, 74, 46, 14], [29, 75, 47, 14]],
    [[13, 145, 115, 15], [3, 146, 116, 15]],
    [[23, 45, 15, 15], [28, 46, 16, 15]],
    [[42, 54, 24, 15], [1, 55, 25, 15]]],
   [[[10, 74, 46, 14], [23, 75, 47, 14]],
    [[17, 145, 115, 15], [0, 0, 0, 0]],
    [[19, 45, 15, 15], [35, 46, 16, 15]],
    [[10, 54, 24, 15], [35, 55, 25, 15]]],
   [[[14, 74, 46, 14], [21, 75, 47, 14]],
    [[17, 145, 115, 15], [1, 146, 116, 15]],
    [[11, 45, 15, 15], [46, 46, 16, 15]],
    [[29, 54, 24, 15], [19, 55, 25, 15]]],
   [[[14, 74, 46, 14], [23, 75, 47, 14]],
    [[13, 145, 115, 15], [6, 146, 116, 15]],
    [[59, 46, 16, 15], [1, 47, 17, 15]],
    [[44, 54, 24, 15], [7, 55, 25, 15]]],
   [[[12, 75, 47, 14], [26, 76, 48, 14]],
    [[12, 151, 121, 15], [7, 152, 122, 15]],
    [[22, 45, 15, 15], [41, 46, 16, 15]],
    [[39, 54, 24, 15], [14, 55, 25, 15]]],
   [[[6, 75, 47, 14], [34, 76, 48, 14]],
    [[6, 151, 121, 15], [14, 152, 122, 15]],
    [[2, 45, 15, 15], [64, 46, 16, 15]],
    [[46, 54, 24, 15], [10, 55, 25, 15]]],
   [[[29, 74, 46, 14], [14, 75, 47, 14]],
    [[17, 152, 122, 15], [4, 153, 123, 15]],
    [[24, 45, 15, 15], [46, 46, 16, 15]],
    [[49, 54, 24, 15], [10, 55, 25, 15]]],
   [[[13, 74, 46, 14], [32, 75, 47, 14]],
    [[4, 152, 122, 15], [18, 153, 123, 15]],
    [[42, 45, 15, 15], [32, 46, 16, 15]],
    [[48, 54, 24, 15], [14, 55, 25, 15]]],
   [[[40, 75, 47, 14], [7, 76, 48, 14]],
    [[20, 147, 117, 15], [4, 148, 118, 15]],
    [[10, 45, 15, 15], [67, 46, 16, 15]],
    [[43, 54, 24, 15], [22, 55, 25, 15]]],
   [[[18, 75, 47, 14], [31, 76, 48, 14]],
    [[19, 148, 118, 15], [6, 149, 119, 15]],
    [[20, 45, 15, 15], [61, 46, 16, 15]],
    [[34, 54, 24, 15], [34, 55, 25, 15]]]]

/-- `ec_blocks` from qr.rs: `ec_blocks[(version-1) as usize][ec as usize]`
made into the two `ECB::new` records. Out-of-range indexing panics in
Rust; the empty-list default stands in for the panic. -/
def ec_blocks (version ec : Nat) : ECB × ECB :=
  let row := (EC_BLOCKS_TABLE.getD (version - 1) []).getD ec []
  (ECB.new (row.getD 0 []), ECB.new (row.getD 1 []))

end QrTables

/-- C2: for every error-correction block shape `(k, e = c - k)` appearing
in the canonical `ec_blocks` table (any version 1..=40, any EC level,
either of the two block groups when present) and every message of length
`k`, decoding the message together with the parity produced by the
encoder with `e` parity bytes returns `Ok(4)` and leaves the message
unchanged. -/
theorem C2_encode_decode_roundtrip (version : Nat) (ec : ErrorCorrectionLevel)
    (hv1 : 1 ≤ version) (hv2 : version ≤ 40) (b : ECB)
    (hb : b = (ec_blocks version ec.toIndex).1 ∨ b = (ec_blocks version ec.toIndex).2)
    (hn : 0 < b.n) (msg : List G) (hm : msg.length = b.k) :
    correct msg (rsEncode (b.c - b.k) msg) = (Except.ok 4, msg) := by
  have hshape : 2 ≤ b.c - b.k ∧ b.c - b.k < 256 := by
    rcases hb with rfl | rfl <;> rcases ec <;> interval_cases version <;> revert hn <;> decide
  exact correct_rsEncode_roundtrip (b.c - b.k) hshape.1 hshape.2 msg

theorem C2_encode_decode_roundtrip_witness :
    correct (glist (List.replicate 19 7))
        (rsEncode ((ec_blocks 1 1).1.c - (ec_blocks 1 1).1.k) (glist (List.replicate 19 7)))
      = (Except.ok 4, glist (List.replicate 19 7)) :=
  C2_encode_decode_roundtrip 1 .L (by decide) (by decide) (ec_blocks 1 1).1 (Or.inl rfl)
    (by decide) (glist (List.replicate 19 7)) (by decide)

/-- C8: for every version 1..=40 and EC level, the two `ec_blocks` groups
account for all the codewords (`Σ nᵢ·cᵢ = n_codewords`), their data
deficit is exactly `n_ec_codewords`, and a present second group has total
and data counts one larger than the first group's. -/
theorem C8_ec_blocks_accounting (version : Nat) (ec : ErrorCorrectionLevel)
    (hv1 : 1 ≤ version) (hv2 : version ≤ 40) :
    (ec_blocks version ec.toIndex).1.n * (ec_blocks version ec.toIndex).1.c
        + (ec_blocks version ec.toIndex).2.n * (ec_blocks version ec.toIndex).2.c
      = n_codewords version ∧
    ((ec_blocks version ec.toIndex).1.n * (ec_blocks version ec.toIndex).1.c
        + (ec_blocks version ec.toIndex).2.n * (ec_blocks version ec.toIndex).2.c)
      - ((ec_blocks version ec.toIndex).1.n * (ec_blocks version ec.toIndex).1.k
        + (ec_blocks version ec.toIndex).2.n * (ec_blocks version ec.toIndex).2.k)
      = n_ec_codewords version ec.toIndex ∧
    (0 < (ec_blocks version ec.toIndex).2.n →
      (ec_blocks version ec.toIndex).2.c = (ec_blocks version ec.toIndex).1.c + 1 ∧
      (ec_blocks version ec.toIndex).2.k = (ec_blocks version ec.toIndex).1.k + 1) := by
  rcases ec <;> interval_cases version <;> decide

theorem C8_ec_blocks_accounting_witness :
    (ec_blocks 8 0).1.n * (ec_blocks 8 0).1.c + (ec_blocks 8 0).2.n * (ec_blocks 8 0).2.c
      = n_codewords 8 ∧
    ((ec_blocks 8 0).1.n * (ec_blocks 8 0).1.c + (ec_blocks 8 0).2.n * (ec_blocks 8 0).2.c)
      - ((ec_blocks 8 0).1.n * (ec_blocks 8 0).1.k + (ec_blocks 8 0).2.n * (ec_blocks 8 0).2.k)
      = n_ec_codewords 8 0 ∧
    (0 < (ec_blocks 8 0).2.n →
      (ec_blocks 8 0).2.c = (ec_blocks 8 0).1.c + 1 ∧
      (ec_blocks 8 0).2.k = (ec_blocks 8 0).1.k + 1) :=
  C8_ec_blocks_accounting 8 .M (by decide) (by decide)

section BitSeqSection

/-- `BitSeq` from qr.rs: a bit sequence stored in a byte vector with a
write cursor. Bytes are Nats kept below 256. -/
structure BitSeq where
  data : List Nat
  idx : Nat
deriving DecidableEq

/-- `BitSeq::new`. -/
def BitSeq.new (n_bytes : Nat) : BitSeq :=
  ⟨List.replicate n_bytes 0, 0⟩

/-- `BitSeq::set_bits`. The two writes to `bidx + 2` and `bidx + 1` are
guarded by length checks; the final `self.data[bidx] += ...` is not, so
the function panics exactly when `bidx = idx / 8` is out of bounds —
modeled by `none`. The `u32` shift keeps 32 bits; the `u8` `+=` is taken
wrapping modulo 256 (release semantics). -/
def BitSeq.set_bits (s : BitSeq) (bits idx n_bits : Nat) : Option BitSeq :=
  let len := s.data.length
  let bidx := idx / 8
  let shift := 24 - (idx % 8) - n_bits
  let v := ((bits % 65536) <<< shift) % 4294967296
  let data := if bidx + 2 < len then s.data.set (bidx + 2) (v % 256) else s.data
  let v := v >>> 8
  let data := if bidx + 1 < len then data.set (bidx + 1) (v % 256) else data
  let v := v >>> 8
  if bidx < len then
    some ⟨data.set bidx ((data.getD bidx 0 + v % 256) % 256), s.idx⟩
  else
    none

/-- `BitSeq::append_bits`: `set_bits` at the cursor, then advance the
cursor; a panic in `set_bits` propagates (the cursor never advances). -/
def BitSeq.append_bits (s : BitSeq) (bits n_bits : Nat) : Option BitSeq :=
  match s.set_bits bits s.idx n_bits with
  | some s2 => some ⟨s2.data, s2.idx + n_bits⟩
  | none => none

theorem bitseq_setbits_isSome (s : BitSeq) (bits idx n_bits : Nat) :
    (s.set_bits bits idx n_bits).isSome ↔ idx / 8 < s.data.length := by
  unfold BitSeq.set_bits
  by_cases h : idx / 8 < s.data.length
  · simp [h]
  · simp [h]

theorem bitseq_append_isSome (s : BitSeq) (bits n_bits : Nat) :
    (s.append_bits bits n_bits).isSome ↔ (s.set_bits bits s.idx n_bits).isSome := by
  unfold BitSeq.append_bits
  cases h : s.set_bits bits s.idx n_bits
  · simp only [h, Option.isSome_none]
  · simp only [h, Option.isSome_some]

end BitSeqSection

/-- C9 counterexample: a 1-byte `BitSeq` whose cursor sits at bit 7
accepts a 2-bit append — the bit range 7..9 extends one bit past the
8-bit capacity — without panicking: the spilled byte is silently dropped
by the guarded write, the carry lands in byte 0, and the cursor moves to
9. The claim says every such call panics. -/
theorem C9_counterexample :
    (BitSeq.new 1).append_bits 0 7 = some ⟨[0], 7⟩ ∧
    7 + 2 > 8 * 1 ∧
    BitSeq.append_bits ⟨[0], 7⟩ 3 2 = some ⟨[1], 9⟩ := by decide

/-- C9 (corrected): `append_bits` panics exactly when the cursor's byte
index `idx / 8` is out of bounds of the byte vector — a bit range that
starts inside the last byte but extends past the capacity does NOT panic
— and, as the claim's safe direction states, a write that stays entirely
within capacity never panics. -/
theorem C9_append_bits_panic (s : BitSeq) (bits n_bits : Nat) :
    ((s.append_bits bits n_bits).isSome ↔ s.idx / 8 < s.data.length) ∧
    (1 ≤ n_bits → s.idx + n_bits ≤ 8 * s.data.length →
      (s.append_bits bits n_bits).isSome) := by
  rw [bitseq_append_isSome, bitseq_setbits_isSome]
  refine ⟨Iff.rfl, fun h1 h2 => ?_⟩
  omega

theorem C9_append_bits_panic_witness : ((BitSeq.new 2).append_bits 5 4).isSome :=
  (C9_append_bits_panic (BitSeq.new 2) 5 4).2 (by decide) (by decide)

section VersionFromLength

/-- `Mode` from lib.rs (discriminants Numeric = 1, AlphaNumeric = 2,
EightBit = 4). -/
inductive Mode where
  | Numeric
  | AlphaNumeric
  | EightBit
deriving DecidableEq

/-- `n_count_bits` from qr.rs. -/
def n_count_bits (version : Nat) (mode : Mode) : Nat :=
  match mode with
  | .EightBit => if version < 10 then 8 else 16
  | .AlphaNumeric => if version < 10 then 9 else if version < 27 then 11 else 13
  | .Numeric => if version < 10 then 10 else if version < 27 then 12 else 14

/-- `data_capacity` from qr.rs (`bits >= x` written `x ≤ bits`). The `u16`
subtractions never underflow for versions 1..=40; truncated Nat
subtraction stands in for them. -/
def data_capacity (version : Nat) (mode : Mode) (ec : Nat) : Nat :=
  let bytes := n_codewords version - n_ec_codewords version ec
  let bits := 8 * bytes - 4 - n_count_bits version mode
  match mode with
  | .EightBit => bits / 8
  | .AlphaNumeric =>
    let cap := (bits / 11) * 2
    if (cap / 2) * 11 + 6 ≤ bits then cap + 1 else cap
  | .Numeric =>
    let cap := (bits / 10) * 3
    if (cap / 3) * 10 + 7 ≤ bits then cap + 2
    else if (cap / 3) * 10 + 4 ≤ bits then cap + 1
    else cap

/-- `version_ec_numeric` from `version_from_length` (qr.rs), rows in
discriminant order M, L, H, Q. -/
def VERSION_EC_NUMERIC : List (List Nat) :=
  [[34, 63, 101, 149, 202, 255, 293, 365, 432, 513, 604, 691, 796, 871, 991, 1082, 1212, 1346, 1500, 1600, 1708, 1872, 2059, 2188, 2395, 2544, 2701, 2857, 3035, 3289, 3486, 3693, 3909, 4134, 4343, 4588, 4775, 5039, 5313, 5596],
   [41, 77, 127, 187, 255, 322, 370, 461, 552, 652, 772, 883, 1022, 1101, 1250, 1408, 1548, 1725, 1903, 2061, 2232, 2409, 2620, 2812, 3057, 3283, 3517, 3669, 3909, 4158, 4417, 4686, 4965, 5253, 5529, 5836, 6153, 6479, 6743, 7089],
   [17, 34, 58, 82, 106, 139, 154, 202, 235, 288, 331, 374, 427, 468, 530, 602, 674, 746, 813, 919, 969, 1056, 1108, 1228, 1286, 1425, 1501, 1581, 1677, 1782, 1897, 2022, 2157, 2301, 2361, 2524, 2625, 2735, 2927, 3057],
   [27, 48, 77, 111, 144, 178, 207, 259, 312, 364, 427, 489, 580, 621, 703, 775, 876, 948, 1063, 1159, 1224, 1358, 1468, 1588, 1718, 1804, 1933, 2085, 2181, 2358, 2473, 2670, 2805, 2949, 3081, 3244, 3417, 3599, 3791, 3993]]

/-- `version_ec_alpha_numeric` from `version_from_length` (qr.rs). -/
def VERSION_EC_ALPHA_NUMERIC : List (List Nat) :=
  [[20, 38, 61, 90, 122, 154, 178, 221, 262, 311, 366, 419, 483, 528, 600, 656, 734, 816, 909, 970, 1035, 1134, 1248, 1326, 1451, 1542, 1637, 1732, 1839, 1994, 2113, 2238, 2369, 2506, 2632, 2780, 2894, 3054, 3220, 3391],
   [25, 47, 77, 114, 154, 195, 224, 279, 335, 395, 468, 535, 619, 667, 758, 854, 938, 1046, 1153, 1249, 1352, 1460, 1588, 1704, 1853, 1990, 2132, 2223, 2369, 2520, 2677, 2840, 3009, 3183, 3351, 3537, 3729, 3927, 4087, 4296],
   [10, 20, 35, 50, 64, 84, 93, 122, 143, 174, 200, 227, 259, 283, 321, 365, 408, 452, 493, 557, 587, 640, 672, 744, 779, 864, 910, 958, 1016, 1080, 1150, 1226, 1307, 1394, 1431, 1530, 1591, 1658, 1774, 1852],
   [16, 29, 47, 67, 87, 108, 125, 157, 189, 221, 259, 296, 352, 376, 426, 470, 531, 574, 644, 702, 742, 823, 890, 963, 1041, 1094, 1172, 1263, 1322, 1429, 1499, 1618, 1700, 1787, 1867, 1966, 2071, 2181, 2298, 2420]]

/-- `version_ec_eight_bit` from `version_from_length` (qr.rs). -/
def VERSION_EC_EIGHT_BIT : List (List Nat) :=
  [[14, 26, 42, 62, 84, 106, 122, 152, 180, 213, 251, 287, 331, 362, 412, 450, 504, 560, 624, 666, 711, 779, 857, 911, 997, 1059, 1125, 1190, 1264, 1370, 1452, 1538, 1628, 1722, 1809, 1911, 1989, 2099, 2213, 2331],
   [17, 32, 53, 78, 106, 134, 154, 192, 230, 271, 321, 367, 425, 458, 520, 586, 644, 718, 792, 858, 929, 1003, 1091, 1171, 1273, 1367, 1465, 1528, 1628, 1732, 1840, 1952, 2068, 2188, 2303, 2431, 2563, 2699, 2809, 2953],
   [7, 14, 24, 34, 44, 58, 64, 84, 98, 119, 137, 155, 177, 194, 220, 250, 280, 310, 338, 382, 403, 439, 461, 511, 535, 593, 625, 658, 698, 742, 790, 842, 898, 958, 983, 1051, 1093, 1139, 1219, 1273],
   [11, 20, 32, 46, 60, 74, 86, 108, 130, 151, 177, 203, 241, 258, 292, 322, 364, 394, 442, 482, 509, 565, 611, 661, 715, 751, 805, 868, 908, 982, 1030, 1112, 1168, 1228, 1283, 1351, 1423, 1499, 1579, 1663]]

/-- Model of `slice::binary_search` restricted to its documented
contract: `Ok(i)` with `arr[i] = target` when the target occurs, else
`Err(i)` with `i` the insertion point. On a strictly sorted slice — the
only way the tables here are used — both indices equal the number of
elements below the target, which pins the contract down uniquely. -/
def binarySearchModel (arr : List Nat) (target : Nat) : Except Nat Nat :=
  if arr.contains target then .ok (arr.filter (fun x => decide (x < target))).length
  else .error (arr.filter (fun x => decide (x < target))).length

/-- The `match mode` table choice inside `version_from_length`. -/
def vflTables (mode : Mode) : List (List Nat) :=
  match mode with
  | .Numeric => VERSION_EC_NUMERIC
  | .AlphaNumeric => VERSION_EC_ALPHA_NUMERIC
  | .EightBit => VERSION_EC_EIGHT_BIT

/-- `version_from_length` from qr.rs: binary-search the per-level row for
`len as u16` and post-process the index. -/
def version_from_length (len : Nat) (mode : Mode) (ec : Nat) : Option Nat :=
  let vv := (vflTables mode).getD ec []
  match binarySearchModel vv (len % 65536) with
  | .ok v => some (v + 1)
  | .error v => if v < 40 then some (v + 1) else none

/-- The iterative search the claim compares against: starting at `v`,
try `fuel` successive versions and return the first whose data capacity
reaches `len`. -/
def iterFrom (len : Nat) (mode : Mode) (ec : Nat) : Nat → Nat → Option Nat
  | _, 0 => none
  | v, fuel + 1 =>
    if len ≤ data_capacity v mode ec then some v else iterFrom len mode ec (v + 1) fuel

/-- The claim's iterative search: first version in 1..=40 with
`data_capacity version mode ec ≥ len`, `none` if there is none. -/
def version_from_length_iter (len : Nat) (mode : Mode) (ec : Nat) : Option Nat :=
  iterFrom len mode ec 1 40

/-- `iterFrom` over a list of capacities. -/
def iterList (t : Nat) : List Nat → Nat → Option Nat
  | [], _ => none
  | a :: l, v => if t ≤ a then some v else iterList t l (v + 1)

theorem iterFrom_eq_iterList (len : Nat) (mode : Mode) (ec : Nat) (fuel : Nat) : ∀ v,
    iterFrom len mode ec v fuel
      = iterList len ((List.range fuel).map (fun j => data_capacity (v + j) mode ec)) v := by
  induction fuel with
  | zero => intro v; rfl
  | succ n ih =>
    intro v
    rw [List.range_succ_eq_map]
    simp only [List.map_cons, List.map_map]
    show (if len ≤ data_capacity v mode ec then some v else iterFrom len mode ec (v + 1) n)
      = if len ≤ data_capacity v mode ec then some v
        else iterList len ((List.range n).map fun j => data_capacity (v + (j + 1)) mode ec) (v + 1)
    by_cases h : len ≤ data_capacity v mode ec
    · rw [if_pos h, if_pos h]
    · rw [if_neg h, if_neg h, ih (v + 1)]
      congr 1
      apply List.map_congr_left
      intro j _
      show data_capacity (v + 1 + j) mode ec = data_capacity (v + (j + 1)) mode ec
      congr 1
      omega

/-- Executable strict-increase check for the table rows. -/
def strictChain : List Nat → Bool
  | [] => true
  | [_] => true
  | a :: b :: l => decide (a < b) && strictChain (b :: l)

theorem strictChain_chain' : ∀ l : List Nat,
    strictChain l = true → List.Chain' (fun a b : Nat => a < b) l
  | [], _ => List.chain'_nil
  | [_], _ => by simp
  | a :: b :: l, h => by
    unfold strictChain at h
    simp only [Bool.and_eq_true, decide_eq_true_eq] at h
    rw [List.chain'_cons]
    exact ⟨h.1, strictChain_chain' (b :: l) h.2⟩

/-- On a strictly increasing list, post-processing the contract model of
`binary_search` the way `version_from_length` does agrees with the linear
first-fit scan. -/
theorem iterList_of_bs (t : Nat) : ∀ (arr : List Nat),
    List.Chain' (fun a b : Nat => a < b) arr → ∀ b,
    iterList t arr b
      = match binarySearchModel arr t with
        | .ok v => some (v + b)
        | .error v => if v < arr.length then some (v + b) else none := by
  intro arr
  induction arr with
  | nil => intro _ b; rfl
  | cons a l ih =>
    intro hs b
    have hpw := List.chain'_iff_pairwise.mp hs
    have hal : ∀ x ∈ l, a < x := (List.pairwise_cons.mp hpw).1
    have hl : List.Chain' (fun a b : Nat => a < b) l :=
      List.chain'_iff_pairwise.mpr (List.pairwise_cons.mp hpw).2
    by_cases hta : t ≤ a
    · have hfil : (a :: l).filter (fun x => decide (x < t)) = [] := by
        rw [List.filter_eq_nil]
        intro x hx
        simp only [decide_eq_true_eq, not_lt]
        rcases List.mem_cons.mp hx with rfl | hxl
        · exact hta
        · exact le_trans hta (le_of_lt (hal x hxl))
      unfold binarySearchModel
      rw [hfil]
      by_cases hc : (a :: l).contains t
      · rw [if_pos hc]
        show (if t ≤ a then some b else iterList t l (b + 1)) = some (0 + b)
        rw [if_pos hta, Nat.zero_add]
      · rw [if_neg hc]
        show (if t ≤ a then some b else iterList t l (b + 1))
          = if 0 < l.length + 1 then some (0 + b) else none
        rw [if_pos hta, if_pos (Nat.succ_pos _), Nat.zero_add]
    · have hat : a < t := Nat.lt_of_not_le hta
      have hfc : (a :: l).filter (fun x => decide (x < t))
          = a :: l.filter (fun x => decide (x < t)) :=
        List.filter_cons_of_pos (by simpa using hat)
      have hcc : (a :: l).contains t = l.contains t := by
        simp only [List.contains_cons, Bool.or_eq_true, beq_iff_eq]
        simp [Nat.ne_of_gt hat]
      unfold binarySearchModel
      rw [hfc, hcc]
      show (if t ≤ a then some b else iterList t l (b + 1)) = _
      rw [if_neg hta, ih hl (b + 1)]
      unfold binarySearchModel
      by_cases hc : l.contains t
      · rw [if_pos hc, if_pos hc]
        show some ((l.filter (fun x => decide (x < t))).length + (b + 1))
          = some ((l.filter (fun x => decide (x < t))).length + 1 + b)
        congr 1
        omega
      · rw [if_neg hc, if_neg hc]
        simp only [List.length_cons]
        by_cases hlt : (l.filter (fun x => decide (x < t))).length < l.length
        · rw [if_pos hlt, if_pos (by omega)]
          congr 1
          omega
        · rw [if_neg hlt, if_neg (by omega)]

theorem search_eq_iterFrom (len : Nat) (mode : Mode) (ec : Nat) (row : List Nat)
    (hrow : List.Chain' (fun a b : Nat => a < b) row)
    (hlen : row.length = 40)
    (hcap : (List.range 40).map (fun j => data_capacity (1 + j) mode ec) = row) :
    (match binarySearchModel row len with
     | .ok v => some (v + 1)
     | .error v => if v < 40 then some (v + 1) else none)
    = iterFrom len mode ec 1 40 := by
  rw [iterFrom_eq_iterList, hcap, iterList_of_bs len row hrow 1]
  cases h : binarySearchModel row len with
  | ok v => rfl
  | error v => rw [hlen]

end VersionFromLength

/-- C6: for every length in 1..8000, every mode and every EC level, the
table-driven `version_from_length` returns the same `Option` as the
iterative search for the first version 1..=40 whose `data_capacity`
reaches the length. -/
theorem C6_version_from_length_equiv (len : Nat) (h1 : 1 ≤ len) (h2 : len < 8000)
    (mode : Mode) (ec : ErrorCorrectionLevel) :
    version_from_length len mode ec.toIndex = version_from_length_iter len mode ec.toIndex := by
  unfold version_from_length version_from_length_iter
  rw [Nat.mod_eq_of_lt (by omega)]
  rcases mode <;> rcases ec <;>
    exact search_eq_iterFrom len _ _ _ (strictChain_chain' _ (by decide)) (by decide) (by decide)

theorem C6_version_from_length_equiv_witness :
    version_from_length 100 Mode.EightBit ErrorCorrectionLevel.L.toIndex
      = version_from_length_iter 100 Mode.EightBit ErrorCorrectionLevel.L.toIndex :=
  C6_version_from_length_equiv 100 (by decide) (by decide) Mode.EightBit .L

section Snake

/-- `n_modules_from_version` from qr.rs. -/
def n_modules_from_version (version : Nat) : Nat := 17 + 4 * version

/-- `alignment_patterns` from qr.rs; the catch-all arm returns an empty
vector. -/
def alignment_patterns (version : Nat) : List Nat :=
  match version with
  | 2 => [6, 18]
  | 3 => [6, 22]
  | 4 => [6, 26]
  | 5 => [6, 30]
  | 6 => [6, 34]
  | 7 => [6, 22, 38]
  | 8 => [6, 24, 42]
  | 9 => [6, 26, 46]
  | 10 => [6, 28, 50]
  | 11 => [6, 30, 54]
  | 12 => [6, 32, 58]
  | 13 => [6, 34, 62]
  | 14 => [6, 26, 46, 66]
  | 15 => [6, 26, 48, 70]
  | 16 => [6, 26, 50, 74]
  | 17 => [6, 30, 54, 78]
  | 18 => [6, 30, 56, 82]
  | 19 => [6, 30, 58, 86]
  | 20 => [6, 34, 62, 90]
  | 21 => [6, 28, 50, 72, 94]
  | 22 => [6, 26, 50, 74, 98]
  | 23 => [6, 30, 54, 78, 102]
  | 24 => [6, 28, 54, 80, 106]
  | 25 => [6, 32, 58, 84, 110]
  | 26 => [6, 30, 58, 86, 114]
  | 27 => [6, 34, 62, 90, 118]
  | 28 => [6, 26, 50, 74, 98, 122]
  | 29 => [6, 30, 54, 78, 102, 126]
  | 30 => [6, 26, 52, 78, 104, 130]
  | 31 => [6, 30, 56, 82, 108, 134]
  | 32 => [6, 34, 60, 86, 112, 138]
  | 33 => [6, 30, 58, 86, 114, 142]
  | 34 => [6, 34, 62, 90, 118, 146]
  | 35 => [6, 30, 54, 78, 102, 126, 150]
  | 36 => [6, 24, 50, 76, 102, 128, 154]
  | 37 => [6, 28, 54, 80, 106, 132, 158]
  | 38 => [6, 32, 58, 84, 110, 136, 162]
  | 39 => [6, 26, 54, 82, 110, 138, 166]
  | 40 => [6, 30, 58, 86, 114, 142, 170]
  | _ => []

/-- The `good` filter inside `AlignmentPatternIterator::next`. -/
def apGood (n i j : Nat) : Bool :=
  if i = 0 then decide (0 < j) && decide (j < n - 1)
  else if j = 0 then decide (0 < i) && decide (i < n - 1)
  else true

/-- The pairs yielded by `AlignmentPatternIterator` (qr.rs): row-major
over the pattern coordinates, dropping the three finder corners. -/
def alignmentPairs (version : Nat) : List (Nat × Nat) :=
  let pats := alignment_patterns version
  let n := pats.length
  (List.range n).bind fun i =>
    (List.range n).filterMap fun j =>
      if apGood n i j then some (pats.getD i 0, pats.getD j 0) else none

/-- `SnakeDataIterator::mark_rect`, on a bitboard `Nat` whose bit
`x * n + y` is the Vec entry `marks[x * n_modules + y]`. -/
def markRect (n marks x0 y0 w h : Nat) : Nat :=
  (List.range w).foldl (fun m i =>
    (List.range h).foldl (fun m2 j => m2 ||| (1 <<< ((x0 + i) * n + (y0 + j)))) m) marks

/-- `SnakeDataIterator::mark` (qr.rs): finder/format, timing, version
info for versions ≥ 7, and the 5x5 alignment areas. -/
def snakeMark (version n : Nat) : Nat :=
  let n8 := n - 8
  let m := markRect n 0 0 0 9 9
  let m := markRect n m n8 0 8 9
  let m := markRect n m 0 n8 9 8
  let m := markRect n m 8 6 (n8 - 8) 1
  let m := markRect n m 6 8 1 (n8 - 8)
  let m :=
    if 7 ≤ version then
      let n11 := n - 11
      markRect n (markRect n m 0 n11 6 3) n11 0 3 6
    else m
  (alignmentPairs version).foldl (fun m p => markRect n m (p.1 - 2) (p.2 - 2) 5 5) m

/-- The mutable cursor of `SnakeDataIterator` (`first` is handled by the
driver; `marks` and `n_modules` never change after construction). -/
structure SnakeState where
  x : Nat
  y : Nat
  dx : Nat
  up : Bool
deriving DecidableEq

/-- The turn branch of the `loop` in `SnakeDataIterator::next`:
`x < 2` ends the iterator, otherwise flip direction, move two columns
left and skip the timing column when `x` lands on 5. -/
def snakeTurn (st : SnakeState) : Option SnakeState :=
  if st.x < 2 then none
  else
    let x := st.x - 2
    let x := if x = 5 then x - 1 else x
    some ⟨x, st.y, st.dx, !st.up⟩

/-- The cursor-advance part of one `loop` iteration of
`SnakeDataIterator::next`: toggle `dx`, stepping `y` (or turning) each
time `dx` returns to 1. -/
def snakeAdvance (n : Nat) (st : SnakeState) : Option SnakeState :=
  if st.dx = 1 then some ⟨st.x, st.y, 0, st.up⟩
  else
    if st.up then
      if st.y = 0 then snakeTurn ⟨st.x, st.y, 1, st.up⟩
      else some ⟨st.x, st.y - 1, 1, st.up⟩
    else
      if n - 1 ≤ st.y then snakeTurn ⟨st.x, st.y, 1, st.up⟩
      else some ⟨st.x, st.y + 1, 1, st.up⟩

/-- One emission step of the `loop` in `SnakeDataIterator::next`: a
marked cell is skipped, an unmarked cell is prepended to the rest of the
stream. -/
def emitStep (marks n : Nat) (p : Nat × Nat) (o : Option (List (Nat × Nat))) :
    Option (List (Nat × Nat)) :=
  if Nat.testBit marks (p.1 * n + p.2) then o
  else
    match o with
    | some l => some (p :: l)
    | none => none

/-- The emission stream of the iterator from a cursor state: since each
`next` call resumes the same `loop` from the stored state, concatenating
the per-call loops gives one run of the loop body per visited cell. Fuel
bounds the number of loop iterations; `none` only on fuel exhaustion
(`Nat.rec` keeps kernel reduction linear). -/
def snakeCollect (marks n : Nat) (fuel : Nat) (st0 : SnakeState) :
    Option (List (Nat × Nat)) :=
  Nat.rec (motive := fun _ => SnakeState → Option (List (Nat × Nat)))
    (fun _ => none)
    (fun _ ih st =>
      match snakeAdvance n st with
      | none => some []
      | some st2 => emitStep marks n (st2.x + st2.dx, st2.y) (ih st2))
    fuel st0

/-- The fresh cursor built by `SnakeDataIterator::new`. -/
def snakeStart (n : Nat) : SnakeState := ⟨n - 2, n - 1, 1, true⟩

/-- The full emission sequence of `SnakeDataIterator::new(version)`: the
unchecked first position `(x + dx, y)` from the fresh state, then the
loop until `None`. The fuel `2·n·n + 2·n` is enough for the whole run,
as proved below. -/
def snakeList (version : Nat) : Option (List (Nat × Nat)) :=
  let n := n_modules_from_version version
  let marks := snakeMark version n
  let st0 := snakeStart n
  match snakeCollect marks n (2 * n * n + 2 * n) st0 with
  | some l => some ((st0.x + st0.dx, st0.y) :: l)
  | none => none

theorem snakeCollect_succ (marks n f : Nat) (st : SnakeState) :
    snakeCollect marks n (f + 1) st
      = match snakeAdvance n st with
        | none => some []
        | some st2 => emitStep marks n (st2.x + st2.dx, st2.y) (snakeCollect marks n f st2) :=
  rfl

/-- One loop iteration from a `dx = 1` state: toggle `dx` to 0 and check
the left cell `(x, y)` of the pair. -/
theorem collect_left (marks n f x y : Nat) (u : Bool) :
    snakeCollect marks n (f + 1) ⟨x, y, 1, u⟩
      = emitStep marks n (x, y) (snakeCollect marks n f ⟨x, y, 0, u⟩) := by
  rw [snakeCollect_succ]
  show emitStep marks n (x + 0, y) _ = _
  rw [Nat.add_zero]

/-- Upward move: from `dx = 0` with `y + 1 > 0`, step to `y` and check
the right cell `(x + 1, y)`. -/
theorem collect_up_move (marks n f x y : Nat) :
    snakeCollect marks n (f + 1) ⟨x, y + 1, 0, true⟩
      = emitStep marks n (x + 1, y) (snakeCollect marks n f ⟨x, y, 1, true⟩) := by
  rw [snakeCollect_succ]
  show emitStep marks n (x + 1, y + 1 - 1) _ = _
  rw [Nat.add_sub_cancel]

/-- Downward move: from `dx = 0` with `y` below the bottom row, step to
`y + 1` and check the right cell. -/
theorem collect_down_move (marks n f x y : Nat) (hy : ¬ (n - 1 ≤ y)) :
    snakeCollect marks n (f + 1) ⟨x, y, 0, false⟩
      = emitStep marks n (x + 1, y + 1) (snakeCollect marks n f ⟨x, y + 1, 1, false⟩) := by
  rw [snakeCollect_succ]
  show (match (if n - 1 ≤ y then snakeTurn ⟨x, y, 1, false⟩ else some ⟨x, y + 1, 1, false⟩) with
        | none => some []
        | some st2 => emitStep marks n (st2.x + st2.dx, st2.y) (snakeCollect marks n f st2)) = _
  rw [if_neg hy]

/-- The column step after a turn (`x - 2`, skipping the timing column
when it lands on 5), from `SnakeDataIterator::next`. -/
def nxt (x : Nat) : Nat :=
  if x - 2 = 5 then x - 2 - 1 else x - 2

/-- Turn at the top of an upward sweep with columns remaining: flip
direction, move two columns left and check `(nxt x + 1, 0)`. -/
theorem collect_up_turn (marks n f x : Nat) (hx : ¬ (x < 2)) :
    snakeCollect marks n (f + 1) ⟨x, 0, 0, true⟩
      = emitStep marks n (nxt x + 1, 0) (snakeCollect marks n f ⟨nxt x, 0, 1, false⟩) := by
  rw [snakeCollect_succ]
  show (match (if x < 2 then none else some (⟨nxt x, 0, 1, false⟩ : SnakeState)) with
        | none => some []
        | some st2 => emitStep marks n (st2.x + st2.dx, st2.y) (snakeCollect marks n f st2)) = _
  rw [if_neg hx]

/-- Turn at the top with `x < 2`: the iterator ends. -/
theorem collect_up_end (marks n f x : Nat) (hx : x < 2) :
    snakeCollect marks n (f + 1) ⟨x, 0, 0, true⟩ = some [] := by
  rw [snakeCollect_succ]
  show (match (if x < 2 then none else some (⟨nxt x, 0, 1, false⟩ : SnakeState)) with
        | none => some []
        | some st2 => emitStep marks n (st2.x + st2.dx, st2.y) (snakeCollect marks n f st2)) = _
  rw [if_pos hx]

/-- Turn at the bottom of a downward sweep with columns remaining. -/
theorem collect_down_turn (marks n f x y : Nat) (hy : n - 1 ≤ y) (hx : ¬ (x < 2)) :
    snakeCollect marks n (f + 1) ⟨x, y, 0, false⟩
      = emitStep marks n (nxt x + 1, y) (snakeCollect marks n f ⟨nxt x, y, 1, true⟩) := by
  rw [snakeCollect_succ]
  show (match (if n - 1 ≤ y
          then (if x < 2 then none else some (⟨nxt x, y, 1, true⟩ : SnakeState))
          else some (⟨x, y + 1, 1, false⟩ : SnakeState)) with
        | none => some []
        | some st2 => emitStep marks n (st2.x + st2.dx, st2.y) (snakeCollect marks n f st2)) = _
  rw [if_pos hy, if_neg hx]

/-- Turn at the bottom with `x < 2`: the iterator ends. -/
theorem collect_down_end (marks n f x y : Nat) (hy : n - 1 ≤ y) (hx : x < 2) :
    snakeCollect marks n (f + 1) ⟨x, y, 0, false⟩ = some [] := by
  rw [snakeCollect_succ]
  show (match (if n - 1 ≤ y
          then (if x < 2 then none else some (⟨nxt x, y, 1, true⟩ : SnakeState))
          else some (⟨x, y + 1, 1, false⟩ : SnakeState)) with
        | none => some []
        | some st2 => emitStep marks n (st2.x + st2.dx, st2.y) (snakeCollect marks n f st2)) = _
  rw [if_pos hy, if_pos hx]

/-- Fold `emitStep` over a list of checked positions. -/
def emitList (marks n : Nat) (ps : List (Nat × Nat)) (o : Option (List (Nat × Nat))) :
    Option (List (Nat × Nat)) :=
  ps.foldr (emitStep marks n) o

/-- The cells checked by an upward sweep of the column pair `(x, x+1)`
starting at height `y` with `dx = 1`: the left cell at `y`, then both
cells at each lower height. -/
def colPairUp (x : Nat) : Nat → List (Nat × Nat)
  | 0 => [(x, 0)]
  | y + 1 => (x, y + 1) :: (x + 1, y) :: colPairUp x y

/-- The cells checked by a downward sweep from height `y` with `d` more
heights below: the left cell at `y`, then both cells at each height. -/
def colPairDown (x : Nat) : Nat → Nat → List (Nat × Nat)
  | 0, y => [(x, y)]
  | d + 1, y => (x, y) :: (x + 1, y + 1) :: colPairDown x d (y + 1)

theorem emitList_cons (marks n : Nat) (p : Nat × Nat) (ps : List (Nat × Nat)) (o) :
    emitList marks n (p :: ps) o = emitStep marks n p (emitList marks n ps o) := rfl

theorem emitList_append (marks n : Nat) (ps qs : List (Nat × Nat)) (o) :
    emitList marks n (ps ++ qs) o = emitList marks n ps (emitList marks n qs o) := by
  unfold emitList
  rw [List.foldr_append]

/-- An upward sweep runs `2·y + 1` loop iterations checking exactly the
`colPairUp` cells, landing at the top in a `dx = 0` state. -/
theorem sweepUp (marks n : Nat) : ∀ y x f,
    snakeCollect marks n (2 * y + 1 + f) ⟨x, y, 1, true⟩
      = emitList marks n (colPairUp x y) (snakeCollect marks n f ⟨x, 0, 0, true⟩) := by
  intro y
  induction y with
  | zero =>
    intro x f
    rw [show 2 * 0 + 1 + f = f + 1 from by omega, collect_left]
    rfl
  | succ y ih =>
    intro x f
    rw [show 2 * (y + 1) + 1 + f = (2 * y + 1 + (f + 1)) + 1 from by omega]
    rw [collect_left, show 2 * y + 1 + (f + 1) = (2 * y + (f + 1)) + 1 from by omega]
    rw [collect_up_move, show 2 * y + (f + 1) = 2 * y + 1 + f from by omega, ih x f]
    rfl

/-- A downward sweep from height `y` with `y + d = n - 1` checks exactly
the `colPairDown` cells, landing at the bottom in a `dx = 0` state. -/
theorem sweepDown (marks n : Nat) : ∀ d x y f, y + d = n - 1 →
    snakeCollect marks n (2 * d + 1 + f) ⟨x, y, 1, false⟩
      = emitList marks n (colPairDown x d y) (snakeCollect marks n f ⟨x, n - 1, 0, false⟩) := by
  intro d
  induction d with
  | zero =>
    intro x y f hy
    rw [Nat.add_zero] at hy
    subst hy
    rw [show 2 * 0 + 1 + f = f + 1 from by omega, collect_left]
    rfl
  | succ d ih =>
    intro x y f hy
    rw [show 2 * (d + 1) + 1 + f = (2 * d + 1 + (f + 1)) + 1 from by omega]
    rw [collect_left, show 2 * d + 1 + (f + 1) = (2 * d + (f + 1)) + 1 from by omega]
    rw [collect_down_move marks n _ x y (by omega)]
    rw [show 2 * d + (f + 1) = 2 * d + 1 + f from by omega, ih x (y + 1) f (by omega)]
    rfl

theorem emitStep_some (marks n : Nat) (p : Nat × Nat) (l : List (Nat × Nat)) :
    emitStep marks n p (some l)
      = some ([p].filter (fun q => !(Nat.testBit marks (q.1 * n + q.2))) ++ l) := by
  unfold emitStep
  by_cases hm : Nat.testBit marks (p.1 * n + p.2)
  · rw [if_pos hm]
    simp [hm]
  · rw [if_neg hm]
    simp [hm]

theorem emitList_some (marks n : Nat) : ∀ (ps : List (Nat × Nat)) (l : List (Nat × Nat)),
    emitList marks n ps (some l)
      = some (ps.filter (fun q => !(Nat.testBit marks (q.1 * n + q.2))) ++ l) := by
  intro ps
  induction ps with
  | nil => intro l; rfl
  | cons p ps ih =>
    intro l
    rw [emitList_cons, ih l, emitStep_some]
    by_cases hm : Nat.testBit marks (p.1 * n + p.2)
    · simp [hm]
    · simp [hm]

/-- The checked cells of the whole remaining run, starting an `up`/down
sweep of pair `(x, x+1)`: the sweep, then (if columns remain) the turn
cell and the rest. -/
def trajFrom (n : Nat) : Nat → Nat → Bool → List (Nat × Nat)
  | 0, _, _ => []
  | fp + 1, x, up =>
    cond up (colPairUp x (n - 1)) (colPairDown x (n - 1) 0)
      ++ (if x < 2 then []
          else (nxt x + 1, cond up 0 (n - 1)) :: trajFrom n fp (nxt x) (!up))

theorem trajFrom_succ (n fp x : Nat) (up : Bool) :
    trajFrom n (fp + 1) x up
      = cond up (colPairUp x (n - 1)) (colPairDown x (n - 1) 0)
        ++ (if x < 2 then []
            else (nxt x + 1, cond up 0 (n - 1)) :: trajFrom n fp (nxt x) (!up)) := by
  simp only [trajFrom]

/-- The collector run from a sweep start emits exactly the unmarked
cells of `trajFrom`, for any sufficiently large pair budget `fp` and any
leftover fuel `f`. -/
theorem collectMaster (marks n : Nat) (hn : 1 ≤ n) : ∀ fp x up f, x + 2 ≤ 2 * fp →
    snakeCollect marks n (2 * n * fp + f) ⟨x, cond up (n - 1) 0, 1, up⟩
      = some ((trajFrom n fp x up).filter
          (fun p => !(Nat.testBit marks (p.1 * n + p.2)))) := by
  intro fp
  induction fp with
  | zero => intro x up f hx; omega
  | succ fp ih =>
    intro x up f hx
    have hfuel : 2 * n * (fp + 1) + f = 2 * (n - 1) + 1 + (2 * n * fp + f + 1) := by
      rw [Nat.mul_succ]
      omega
    cases up with
    | true =>
      rw [hfuel]
      show snakeCollect marks n _ ⟨x, n - 1, 1, true⟩ = _
      rw [sweepUp]
      by_cases hx2 : x < 2
      · rw [show 2 * n * fp + f + 1 = (2 * n * fp + f) + 1 from rfl,
          collect_up_end marks n _ x hx2, emitList_some, List.append_nil]
        rw [trajFrom_succ, if_pos hx2, List.append_nil]
        rfl
      · rw [show 2 * n * fp + f + 1 = (2 * n * fp + f) + 1 from rfl,
          collect_up_turn marks n _ x hx2]
        have hih : snakeCollect marks n (2 * n * fp + f) ⟨nxt x, 0, 1, false⟩
            = some ((trajFrom n fp (nxt x) false).filter
                (fun p => !(Nat.testBit marks (p.1 * n + p.2)))) :=
          ih (nxt x) false f (by unfold nxt; split <;> omega)
        rw [hih, emitStep_some, emitList_some]
        rw [trajFrom_succ, if_neg hx2]
        show _ = some ((colPairUp x (n - 1)
            ++ ((nxt x + 1, 0) :: trajFrom n fp (nxt x) false)).filter _)
        rw [show ((nxt x + 1, 0) :: trajFrom n fp (nxt x) false)
              = [(nxt x + 1, 0)] ++ trajFrom n fp (nxt x) false from rfl]
        rw [List.filter_append, List.filter_append]
    | false =>
      rw [hfuel]
      show snakeCollect marks n _ ⟨x, 0, 1, false⟩ = _
      rw [show 2 * (n - 1) + 1 + (2 * n * fp + f + 1)
            = 2 * (n - 1) + 1 + (2 * n * fp + f + 1) from rfl]
      rw [sweepDown marks n (n - 1) x 0 (2 * n * fp + f + 1) (by omega)]
      by_cases hx2 : x < 2
      · rw [show 2 * n * fp + f + 1 = (2 * n * fp + f) + 1 from rfl,
          collect_down_end marks n _ x (n - 1) (le_refl _) hx2, emitList_some, List.append_nil]
        rw [trajFrom_succ, if_pos hx2, List.append_nil]
        rfl
      · rw [show 2 * n * fp + f + 1 = (2 * n * fp + f) + 1 from rfl,
          collect_down_turn marks n _ x (n - 1) (le_refl _) hx2]
        have hih : snakeCollect marks n (2 * n * fp + f) ⟨nxt x, n - 1, 1, true⟩
            = some ((trajFrom n fp (nxt x) true).filter
                (fun p => !(Nat.testBit marks (p.1 * n + p.2)))) :=
          ih (nxt x) true f (by unfold nxt; split <;> omega)
        rw [hih, emitStep_some, emitList_some]
        rw [trajFrom_succ, if_neg hx2]
        show _ = some ((colPairDown x (n - 1) 0
            ++ ((nxt x + 1, n - 1) :: trajFrom n fp (nxt x) true)).filter _)
        rw [show ((nxt x + 1, n - 1) :: trajFrom n fp (nxt x) true)
              = [(nxt x + 1, n - 1)] ++ trajFrom n fp (nxt x) true from rfl]
        rw [List.filter_append, List.filter_append]

theorem mem_colPairUp (x : Nat) : ∀ y p, p ∈ colPairUp x y
    ↔ (p.1 = x ∧ p.2 ≤ y) ∨ (p.1 = x + 1 ∧ p.2 < y) := by
  intro y
  induction y with
  | zero =>
    intro p
    simp [colPairUp, Prod.ext_iff] <;> omega
  | succ y ih =>
    intro p
    simp [colPairUp, Prod.ext_iff, ih] <;> omega

theorem nodup_colPairUp (x : Nat) : ∀ y, (colPairUp x y).Nodup := by
  intro y
  induction y with
  | zero => simp [colPairUp]
  | succ y ih =>
    simp only [colPairUp, List.nodup_cons]
    refine ⟨?_, ?_, ih⟩
    · simp [mem_colPairUp, ne_eq, Prod.ext_iff, Prod.mk.injEq] <;> omega
    · simp [mem_colPairUp] <;> omega

theorem mem_colPairDown (x : Nat) : ∀ d y p, p ∈ colPairDown x d y
    ↔ (p.1 = x ∧ y ≤ p.2 ∧ p.2 ≤ y + d) ∨ (p.1 = x + 1 ∧ y + 1 ≤ p.2 ∧ p.2 ≤ y + d) := by
  intro d
  induction d with
  | zero =>
    intro y p
    simp [colPairDown, Prod.ext_iff] <;> omega
  | succ d ih =>
    intro y p
    simp [colPairDown, Prod.ext_iff, ih] <;> omega

theorem nodup_colPairDown (x : Nat) : ∀ d y, (colPairDown x d y).Nodup := by
  intro d
  induction d with
  | zero => intro y; simp [colPairDown]
  | succ d ih =>
    intro y
    simp only [colPairDown, List.nodup_cons]
    refine ⟨?_, ?_, ih (y + 1)⟩
    · simp [mem_colPairDown, ne_eq, Prod.ext_iff, Prod.mk.injEq] <;> omega
    · simp [mem_colPairDown] <;> omega

/-- The column values the turn dynamics can reach: the odd descent from
`n - 2` down to 7, then 4, 2, 0 after the timing-column skip. -/
def snakeColP (x : Nat) : Prop := x = 0 ∨ x = 2 ∨ x = 4 ∨ (x % 2 = 1 ∧ 7 ≤ x)

theorem snakeColP_nxt (x : Nat) (hx : ¬ x < 2) (hP : snakeColP x) : snakeColP (nxt x) := by
  unfold snakeColP nxt at *
  split <;> omega

theorem nxt_lt (x : Nat) (hx : ¬ x < 2) : nxt x + 1 < x := by
  unfold nxt
  split <;> omega

/-- Membership in the remaining trajectory: every cell of a column up to
`x + 1`, except the timing column 6 and except the cell the incoming
turn already checked. -/
theorem mem_trajFrom (n : Nat) (hn : 9 ≤ n) : ∀ fp x up, x + 2 ≤ 2 * fp → snakeColP x →
    ∀ p : Nat × Nat, p ∈ trajFrom n fp x up
      ↔ (p.1 ≤ x + 1 ∧ p.1 ≠ 6 ∧ p.2 < n ∧ p ≠ (x + 1, cond up (n - 1) 0)) := by
  intro fp
  induction fp with
  | zero => intro x up hx; omega
  | succ fp ih =>
    intro x up hx hP p
    rw [trajFrom_succ]
    by_cases hx2 : x < 2
    · have hx0 : x = 0 := by unfold snakeColP at hP; omega
      subst hx0
      rw [if_pos (by omega), List.append_nil]
      cases up with
      | true =>
        simp only [Bool.cond_true, Bool.cond_false, List.mem_append, mem_colPairUp, ne_eq, Prod.ext_iff, Prod.mk.injEq]
        constructor
        · intro h; omega
        · intro h; omega
      | false =>
        simp only [Bool.cond_true, Bool.cond_false, List.mem_append, mem_colPairDown, ne_eq, Prod.ext_iff, Prod.mk.injEq]
        constructor
        · intro h; omega
        · intro h; omega
    · rw [if_neg hx2]
      have hnxtP := snakeColP_nxt x hx2 hP
      have hlt := nxt_lt x hx2
      have hih := ih (nxt x) (!up) (by unfold nxt; split <;> omega) hnxtP p
      have hgap : (nxt x = x - 2 ∧ x ≠ 7) ∨ (x = 7 ∧ nxt x = 4) := by
        unfold nxt
        unfold snakeColP at hP
        split <;> omega
      have hx6 : x ≠ 6 ∧ x + 1 ≠ 6 := by unfold snakeColP at hP; omega
      cases up with
      | true =>
        simp only [Bool.not_true, Bool.cond_false, ne_eq, Prod.ext_iff, Prod.mk.injEq] at hih
        simp only [Bool.not_true, Bool.cond_true, Bool.cond_false, List.mem_append, List.mem_cons,
          mem_colPairUp, hih, ne_eq, Prod.ext_iff, Prod.mk.injEq]
        constructor
        · intro h
          rcases hgap with ⟨hg, hg7⟩ | ⟨hg7, hg⟩ <;> rcases h with h | h | h <;> omega
        · intro h
          rcases hgap with ⟨hg, hg7⟩ | ⟨hg7, hg⟩ <;> omega
      | false =>
        simp only [Bool.not_false, Bool.cond_true, ne_eq, Prod.ext_iff, Prod.mk.injEq] at hih
        simp only [Bool.not_false, Bool.cond_true, Bool.cond_false, List.mem_append, List.mem_cons,
          mem_colPairDown, hih, ne_eq, Prod.ext_iff, Prod.mk.injEq]
        constructor
        · intro h
          rcases hgap with ⟨hg, hg7⟩ | ⟨hg7, hg⟩ <;> rcases h with h | h | h <;> omega
        · intro h
          rcases hgap with ⟨hg, hg7⟩ | ⟨hg7, hg⟩ <;> omega

/-- The remaining trajectory never checks a cell twice. -/
theorem nodup_trajFrom (n : Nat) (hn : 9 ≤ n) : ∀ fp x up, x + 2 ≤ 2 * fp → snakeColP x →
    (trajFrom n fp x up).Nodup := by
  intro fp
  induction fp with
  | zero => intro x up hx; omega
  | succ fp ih =>
    intro x up hx hP
    rw [trajFrom_succ]
    by_cases hx2 : x < 2
    · rw [if_pos hx2, List.append_nil]
      cases up with
      | true => exact nodup_colPairUp x (n - 1)
      | false => exact nodup_colPairDown x (n - 1) 0
    · rw [if_neg hx2]
      have hlt := nxt_lt x hx2
      have hnxtP := snakeColP_nxt x hx2 hP
      have hfp : nxt x + 2 ≤ 2 * fp := by unfold nxt; split <;> omega
      cases up with
      | true =>
        have hihn := ih (nxt x) false hfp hnxtP
        have hmem := mem_trajFrom n hn fp (nxt x) false hfp hnxtP
        show (colPairUp x (n - 1)
            ++ ((nxt x + 1, 0) :: trajFrom n fp (nxt x) false)).Nodup
        rw [List.nodup_append]
        refine ⟨nodup_colPairUp x (n - 1), ?_, ?_⟩
        · rw [List.nodup_cons]
          refine ⟨fun hc => ?_, hihn⟩
          obtain ⟨h1, h2, h3, h4⟩ := (hmem _).mp hc
          exact h4 rfl
        · intro p hpA hpB
          rw [mem_colPairUp] at hpA
          rcases List.mem_cons.mp hpB with rfl | hpT
          · dsimp only at hpA
            omega
          · obtain ⟨h1, _, _, _⟩ := (hmem p).mp hpT
            omega
      | false =>
        have hihn := ih (nxt x) true hfp hnxtP
        have hmem := mem_trajFrom n hn fp (nxt x) true hfp hnxtP
        show (colPairDown x (n - 1) 0
            ++ ((nxt x + 1, n - 1) :: trajFrom n fp (nxt x) true)).Nodup
        rw [List.nodup_append]
        refine ⟨nodup_colPairDown x (n - 1) 0, ?_, ?_⟩
        · rw [List.nodup_cons]
          refine ⟨fun hc => ?_, hihn⟩
          obtain ⟨h1, h2, h3, h4⟩ := (hmem _).mp hc
          exact h4 rfl
        · intro p hpA hpB
          rw [mem_colPairDown] at hpA
          rcases List.mem_cons.mp hpB with rfl | hpT
          · dsimp only at hpA
            omega
          · obtain ⟨h1, _, _, _⟩ := (hmem p).mp hpT
            omega

/-- Number of set bits of `m` below position `B`. -/
def popCountTo (B m : Nat) : Nat :=
  ((Finset.range B).filter (fun i => m.testBit i)).card

/-- Byte-indexed table of the bit counts of 0..255, one count per byte. -/
def POP8PACK : Nat :=
  1013371797438326782088527885626145114869279839357273206994663807870378574120944418419436367054140611451049417760204952716157707395913305053141503655967864012230780761557092017373387303026677869852522838963663262406984442671150543646567039340048842837107735057250874075921518337091852213351450684411239623177375031168665231925272535801977875611804250701587889381816060971805622316951777918693305331168867185049460341980332139430100205929927472959341318173082042210036159181875921966396192956430460355834169346681316034785786016803592777021614286352739503720844564764981555889936616414321310481604187217024121026183424

/-- Bit count of a byte, by table lookup. -/
def pop8 (b : Nat) : Nat := (POP8PACK >>> (8 * b)) % 256

/-- Tail-recursive bit count over `fuel` bytes of `m`. -/
def popChunksAux (fuel m acc : Nat) : Nat :=
  Nat.rec (motive := fun _ => Nat → Nat → Nat)
    (fun _ acc => acc)
    (fun _ ih m acc =>
      match acc + pop8 (m % 256) with
      | 0 => ih (m >>> 8) 0
      | a + 1 => ih (m >>> 8) (a + 1))
    fuel m acc

theorem popChunksAux_succ (fuel m acc : Nat) :
    popChunksAux (fuel + 1) m acc = popChunksAux fuel (m >>> 8) (acc + pop8 (m % 256)) := by
  show (match acc + pop8 (m % 256) with
        | 0 => popChunksAux fuel (m >>> 8) 0
        | a + 1 => popChunksAux fuel (m >>> 8) (a + 1))
      = popChunksAux fuel (m >>> 8) (acc + pop8 (m % 256))
  cases acc + pop8 (m % 256) with
  | zero => rfl
  | succ a => rfl

theorem pop8_eq : ∀ b < 256, pop8 b = popCountTo 8 b := by decide

/-- Splitting a bit count at position `a`. -/
theorem popCountTo_add (a b m : Nat) :
    popCountTo (a + b) m = popCountTo a (m % 2 ^ a) + popCountTo b (m >>> a) := by
  unfold popCountTo
  rw [Finset.card_filter, Finset.card_filter, Finset.card_filter]
  rw [Finset.range_eq_Ico, ← Finset.sum_Ico_consecutive _ (Nat.zero_le a) (Nat.le_add_right a b)]
  congr 1
  · rw [← Finset.range_eq_Ico]
    apply Finset.sum_congr rfl
    intro i hi
    rw [Nat.testBit_mod_two_pow]
    rw [decide_eq_true (Finset.mem_range.mp hi), Bool.true_and]
  · rw [Finset.sum_Ico_eq_sum_range, Nat.add_sub_cancel_left, ← Finset.range_eq_Ico]
    apply Finset.sum_congr rfl
    intro i _
    rw [Nat.testBit_shiftRight]

theorem popChunksAux_spec : ∀ fuel m acc,
    popChunksAux fuel m acc = acc + popCountTo (8 * fuel) m := by
  intro fuel
  induction fuel with
  | zero =>
    intro m acc
    show acc = acc + popCountTo 0 m
    rw [show popCountTo 0 m = 0 from rfl, Nat.add_zero]
  | succ fuel ih =>
    intro m acc
    rw [popChunksAux_succ, ih]
    rw [show 8 * (fuel + 1) = 8 + 8 * fuel from by omega, popCountTo_add]
    rw [pop8_eq (m % 256) (by omega), show (2 : Nat) ^ 8 = 256 from rfl]
    omega

/-- Bits at or above `B2` all clear: counting up to `B` is counting up
to `B2`. -/
theorem popCountTo_high_zero (B B2 m : Nat) (hB : B2 ≤ B) (h : m >>> B2 = 0) :
    popCountTo B m = popCountTo B2 m := by
  unfold popCountTo
  congr 1
  apply Finset.ext
  intro i
  simp only [Finset.mem_filter, Finset.mem_range]
  constructor
  · rintro ⟨hiB, hbit⟩
    refine ⟨?_, hbit⟩
    by_contra hge
    have h2 : m.testBit i = false := by
      rw [show i = B2 + (i - B2) from by omega, ← Nat.testBit_shiftRight, h, Nat.zero_testBit]
    rw [h2] at hbit
    exact Bool.noConfusion hbit
  · rintro ⟨hiB, hbit⟩
    exact ⟨by omega, hbit⟩

end Snake

end Qrlogo
